import Mathlib

/-!
Verification of the blob_sim simulation core against its specification.

The definitions below are a shallow embedding of the Python sources:
  - `src/simulation/controllers/events.py` (`Event`, `EventScheduler`, backed by
    CPython's `heapq` module, whose reference implementation is embedded here
    verbatim as `siftdown` / `siftup` / `heappush` / `heappop`),
  - `src/simulation/entities/blob.py` (`Blob.update`, `Blob.decide_action`),
  - `src/simulation/controllers/blob_action.py` (the action classes),
  - `src/simulation/entities/interaction.py` (`Interaction.process`),
  - `src/simulation/entities/world.py` (`World.update` and its phases),
  - `src/simulation/sim_engine.py` (`SimEngine.handle_timings`, the bounded
    renderer queue of `update_and_send_renderer_data`).

Python floats are modelled as rationals (`ℚ`).  The only place the sources
compute an irrational value is `np.linalg.norm` (a Euclidean distance), which
is immediately compared against a visual range `r`; since `dist ≤ r` holds iff
`0 ≤ r ∧ dist² ≤ r²`, the embedding carries squared distances (`dist2`) and
performs exactly that comparison (`canSee`), which is equivalent to the
source's comparison on real numbers.
-/

namespace BlobSim

/- Batteries marks the `Rat` field operations `@[irreducible]`; re-allow
unfolding so that `decide` can evaluate the model on concrete inputs. -/
attribute [local semireducible] Rat.add Rat.sub Rat.mul Rat.inv

/-- 3-component vector, the shape of a blob/thing location or direction. -/
abbrev Vec3 : Type := ℚ × ℚ × ℚ

/-- Squared Euclidean distance between two 3-vectors.  `np.linalg.norm (p - q)`
is the square root of this quantity. -/
def dist2 (p q : Vec3) : ℚ :=
  (p.1 - q.1) * (p.1 - q.1) + (p.2.1 - q.2.1) * (p.2.1 - q.2.1) +
    (p.2.2 - q.2.2) * (p.2.2 - q.2.2)

/-- `canSee d2 r` is `‖p - q‖ ≤ r` expressed on the squared distance
`d2 = dist2 p q`: for a real `r`, `Real.sqrt d2 ≤ r ↔ 0 ≤ r ∧ d2 ≤ r * r`. -/
def canSee (d2 r : ℚ) : Bool :=
  decide (0 ≤ r ∧ d2 ≤ r * r)

/-- Payload of an `Event` (the `data` dict of `events.py`).  The Python dict
also carries the `blob` object reference; blobs are identified here by their
unique integer id (`Event.blob_id`), which every call site sets to the id of
that very blob. -/
structure EventData where
  direction : Vec3
  speed : ℚ
  duration : ℚ
  start_time : ℚ
  interaction_id : String
  participants : List Nat
deriving Repr, DecidableEq

instance : Inhabited EventData := ⟨⟨(0, 0, 0), 0, 0, 0, "", []⟩⟩

/-- An `EventData` with every field at a dummy value; call sites populate the
fields their event type reads, mirroring the Python keyword dicts. -/
def EventData.none : EventData := default

/-- `Event` from `events.py`: `time`, `event_type`, `blob_id`, `data`.
`Event.__lt__` compares only `time`. -/
structure Event where
  time : ℚ
  event_type : String
  blob_id : Nat
  data : EventData
deriving Repr, DecidableEq

instance : Inhabited Event := ⟨⟨0, "", 0, default⟩⟩

/-- `Event.__lt__`: ordering is by scheduled time only. -/
def Event.lt (a b : Event) : Bool :=
  decide (a.time < b.time)

/-- List lookup with the `Inhabited` default, standing in for Python's
(always in-bounds at call sites) `heap[i]`. -/
def nth {α : Type} [Inhabited α] (l : List α) (i : Nat) : α :=
  l.getD i default

/-- Exchange the entries at positions `i` and `j`.  CPython's `_siftdown` and
`_siftup` keep the moving item in a local and write it once at the end; the
resulting array is the same as performing one exchange per loop iteration,
which is how the loops are rendered here. -/
def lswap {α : Type} [Inhabited α] (l : List α) (i j : Nat) : List α :=
  (l.set i (nth l j)).set j (nth l i)

/-- Loop body of CPython `heapq._siftdown(heap, startpos, pos)` (move the item
at `pos` up toward `startpos` while it is strictly smaller than its parent),
made structurally recursive on a fuel argument so that the kernel can
evaluate it; each iteration strictly decreases `pos`, so `fuel = pos`
suffices (`siftdown_eq` below recovers the plain recursion). -/
def siftdownAux : Nat → List Event → Nat → Nat → List Event
  | 0, l, _, _ => l
  | fuel + 1, l, startpos, pos =>
    if startpos < pos then
      let parentpos := (pos - 1) / 2
      if (nth l pos).time < (nth l parentpos).time then
        siftdownAux fuel (lswap l pos parentpos) startpos parentpos
      else l
    else l

/-- CPython `heapq._siftdown(heap, startpos, pos)`. -/
def siftdown (l : List Event) (startpos pos : Nat) : List Event :=
  siftdownAux pos l startpos pos

/-- Loop body of CPython `heapq._siftup(heap, pos)` (walk the item at `pos`
down to a leaf, moving the smaller child up at each level — the right child
on ties — then restore order along the traversed path with `_siftdown`),
with a fuel argument for the same reason as `siftdownAux`; each iteration
strictly increases `pos` below the fixed list length, so
`fuel = l.length - pos` suffices (`siftup_eq` below). -/
def siftupAux : Nat → List Event → Nat → Nat → List Event
  | 0, l, startpos, pos => siftdown l startpos pos
  | fuel + 1, l, startpos, pos =>
    let endpos := l.length
    let childpos := 2 * pos + 1
    if childpos < endpos then
      let rightpos := childpos + 1
      let child :=
        if rightpos < endpos ∧ ¬ (nth l childpos).time < (nth l rightpos).time
        then rightpos else childpos
      siftupAux fuel (lswap l pos child) startpos child
    else
      siftdown l startpos pos

/-- CPython `heapq._siftup(heap, pos)` (with its `startpos = pos` binding made
an explicit argument; the scheduler only ever calls it as `_siftup(heap, 0)`). -/
def siftup (l : List Event) (startpos pos : Nat) : List Event :=
  siftupAux (l.length - pos) l startpos pos

/-- CPython `heapq.heappush`: append then sift up from the new last slot. -/
def heappush (l : List Event) (e : Event) : List Event :=
  siftdown (l ++ [e]) 0 l.length

/-- CPython `heapq.heappop`: remove the last element; if the heap is still
non-empty, overwrite the root with it, sift, and return the old root.
Popping an empty heap raises in Python, rendered as `none` (the scheduler's
loop guard makes the call only on non-empty heaps). -/
def heappop : List Event → Option (Event × List Event)
  | [] => none
  | [e] => some (e, [])
  | e :: x :: xs =>
    let lastelt := (e :: x :: xs).getLast (by simp)
    let rest := (e :: x :: xs).dropLast
    some (e, siftup (rest.set 0 lastelt) 0 0)

/-- `EventScheduler.schedule_event`: build the `Event` and `heappush` it. -/
def schedule_event (l : List Event) (time : ℚ) (event_type : String)
    (blob_id : Nat) (data : EventData) : List Event :=
  heappush l ⟨time, event_type, blob_id, data⟩

/-- Loop body of `EventScheduler.process_events_until(t)` at the queue level
(pop while the minimum scheduled time is at most `t`), with a fuel argument
for kernel evaluability; each pop shrinks the heap, so `fuel = l.length`
suffices (`processUntil_eq` below). -/
def processUntilAux : Nat → List Event → ℚ → List Event × List Event
  | 0, l, _ => ([], l)
  | fuel + 1, l, t =>
    match heappop l with
    | none => ([], l)
    | some (e, rest) =>
      if e.time ≤ t then
        let p := processUntilAux fuel rest t
        (e :: p.1, p.2)
      else ([], l)

/-- `EventScheduler.process_events_until(t)` at the queue level: pop while the
minimum scheduled time is at most `t`.  Returns the popped events in pop
order together with the remaining heap.  (`handle_event` never touches the
queue itself — no action schedules further events — so executing the popped
events is a fold over this list; see `eventsPhase` below.) -/
def processUntil (l : List Event) (t : ℚ) : List Event × List Event :=
  processUntilAux l.length l t

/-! ## Blob (`blob.py`)

Fields not read anywhere in the simulation core (gender, name, birth_hour,
generation, reproduction_state, life_stage, health, color, `settings`/`world`
back references) are omitted; every field the core reads or writes is kept. -/

structure Blob where
  id : Nat
  age : ℚ
  lifespan : ℚ
  alive : Bool
  radius : ℚ
  visual_range : ℚ
  location : Vec3
  state : String
  energy : ℚ
  is_moving : Bool
  walking_speed : ℚ
  direction : Vec3
  interaction_state : String
  current_interaction_id : Option String
  interaction_end_time : ℚ
  action_end_time : Option ℚ
deriving Repr, DecidableEq

instance : Inhabited Blob :=
  ⟨⟨0, 0, 0, false, 0, 0, (0, 0, 0), "", 0, false, 0, (0, 0, 0), "", none, 0, none⟩⟩

/-- Per-blob settings consumed by `Blob.__init__` (`BLOB_AVERAGE_LIFESPAN`,
`BLOB_INITIAL_ENERGY`, `BLOB_WALKING_SPEED`, `BLOB_RADIUS`). -/
structure BlobParams where
  lifespan : ℚ
  energy : ℚ
  walking_speed : ℚ
  radius : ℚ
deriving Repr, DecidableEq

/-- `Blob.__init__`: a fresh blob at `loc` — idle, alive, age 0, not moving,
zero direction, visual range 3.0, interaction state free. -/
def newBlob (id : Nat) (loc : Vec3) (p : BlobParams) : Blob :=
  { id := id, age := 0, lifespan := p.lifespan, alive := true, radius := p.radius,
    visual_range := 3, location := loc, state := "idle", energy := p.energy,
    is_moving := false, walking_speed := p.walking_speed, direction := (0, 0, 0),
    interaction_state := "free", current_interaction_id := none,
    interaction_end_time := 0, action_end_time := none }

/-- `Blob.update(sim_delta_time)`: age (death when age exceeds lifespan), then
— if moving — advance the position by `direction * walking_speed * delta`;
an out-of-bounds result is clamped to `[0, dim - 1]` per coordinate and the
blob is stopped: `is_moving = False`, `state = "idle"`, direction zeroed.
The write-back into the world's parallel `blob_locations` array is commented
out in the source (`# self.update_blob_location(...)`), so this function
touches only the blob itself.  `L`, `W`, `H` are the world dimensions. -/
def Blob.update (b : Blob) (sim_delta_time L W H : ℚ) : Blob :=
  let aged : Blob :=
    { b with age := b.age + sim_delta_time,
             alive := if b.age + sim_delta_time > b.lifespan then false else b.alive }
  if aged.is_moving then
    let dx := aged.direction.1 * aged.walking_speed * sim_delta_time
    let dy := aged.direction.2.1 * aged.walking_speed * sim_delta_time
    let dz := aged.direction.2.2 * aged.walking_speed * sim_delta_time
    let nl : Vec3 := (aged.location.1 + dx, aged.location.2.1 + dy, aged.location.2.2 + dz)
    if 0 ≤ nl.1 ∧ nl.1 < L ∧ 0 ≤ nl.2.1 ∧ nl.2.1 < W ∧ 0 ≤ nl.2.2 ∧ nl.2.2 < H then
      { aged with location := nl }
    else
      { aged with
        location := (max 0 (min nl.1 (L - 1)), max 0 (min nl.2.1 (W - 1)),
                     max 0 (min nl.2.2 (H - 1))),
        is_moving := false, state := "idle", direction := (0, 0, 0) }
  else aged

/-- `Blob.decide_action`, with the random draws made explicit arguments:
`choice` is `random.choice(["start_walk_direction_timed", "start_rest"])`
(`true` picks the timed walk), `dir` the random unit direction (a 2-D vector
in the source, padded with `z = 0` here as `Blob.update` pads it), `walkDur`
the `random.uniform(2, 6)` draw and `restDur` the `random.uniform(0.1, 1.0)`
draw.  The `"start_walk_direction"` branch of the source is unreachable
(`random.choice` never yields it) and is omitted. -/
inductive Decision where
  | walkTimed (direction : Vec3) (speed duration : ℚ)
  | rest (duration : ℚ)
deriving Repr, DecidableEq

/-- The random draws `Blob.decide_action` consumes. -/
structure RngDraw where
  choice : Bool
  dir : Vec3
  walkDur : ℚ
  restDur : ℚ

def Blob.decide_action (b : Blob) (r : RngDraw) : Decision :=
  if r.choice then Decision.walkTimed r.dir b.walking_speed r.walkDur
  else Decision.rest r.restDur

/-! ## Things (`things.py`) — only their existence and positions matter to the
interaction detector. -/

structure Thing where
  name : String
deriving Repr, DecidableEq

/-! ## Interactions (`interaction.py`) -/

/-- A participant of an interaction: the Python `entities` list holds blob and
thing objects; blobs are identified by id, things by their index in
`World.things`. -/
inductive Part where
  | blob (id : Nat)
  | thing (idx : Nat)
deriving Repr, DecidableEq

/-- `Interaction`: id string, participant list, interaction type.  The
`processed` idempotence flag is omitted: the world processes each freshly
created interaction exactly once, so the flag is never observed `True`. -/
structure Interaction where
  iid : String
  participants : List Part
  itype : String
deriving Repr, DecidableEq

/-! ## World (`world.py`) -/

structure World where
  length : ℚ
  width : ℚ
  height : ℚ
  hours_per_day : ℤ
  blob_count : Nat
  population : List Blob
  undecided : List Nat
  blob_locations : List Vec3
  things : List Thing
  things_locations : List Vec3
  current_sim_time : ℚ
  hour : ℤ
  day_hour : ℤ
  day : ℤ
  events : List Event
deriving Repr, DecidableEq

/-- `World.__init__` with the dimension/clock settings as arguments and empty
population (Python's float-valued initial `day/hour/day_hour = 0.0` are the
integer 0 here; `World.update` overwrites them with integers). -/
def mkWorld (L W H : ℚ) (hpd : ℤ) : World :=
  { length := L, width := W, height := H, hours_per_day := hpd, blob_count := 0,
    population := [], undecided := [], blob_locations := [], things := [],
    things_locations := [], current_sim_time := 0, hour := 0, day_hour := 0,
    day := 0, events := [] }

/-- `World.blob_birth` with the random 2-D ground coordinates and the blob
settings as arguments: increments `blob_count`, appends the new blob to
`population` and to `undecided_blobs`, and stacks its location onto the
parallel `blob_locations` array. -/
def blob_birth (w : World) (loc : Vec3) (p : BlobParams) : World :=
  let id := w.blob_count + 1
  { w with blob_count := id,
           population := w.population ++ [newBlob id loc p],
           undecided := w.undecided ++ [id],
           blob_locations := w.blob_locations ++ [loc] }

/-- Apply `f` to the population member(s) with id `bid` — the rendering of a
Python mutation through the object reference held in an event's data dict
(blob ids are unique: `blob_count` only ever increments). -/
def mapBlobId (w : World) (bid : Nat) (f : Blob → Blob) : World :=
  { w with population := w.population.map fun b => if b.id = bid then f b else b }

/-- `BlobAction.go_idle`: idle state, stop moving, zero direction, clear the
action end time, and append the blob to the world's undecided list. -/
def go_idle (w : World) (bid : Nat) : World :=
  let w' := mapBlobId w bid fun b =>
    { b with state := "idle", is_moving := false, direction := (0, 0, 0),
             action_end_time := none }
  { w' with undecided := w'.undecided ++ [bid] }

/-- `EventScheduler.handle_event` composed with `BlobActionFactory` and the
`execute` methods of `blob_action.py`.  Unknown event types raise a
`ValueError` that `handle_event` catches and logs, leaving state unchanged.
None of the actions touches the event queue. -/
def handle_event (w : World) (e : Event) : World :=
  if e.event_type = "start_walk_direction" then
    mapBlobId w e.blob_id fun b =>
      if b.alive then
        { b with state := "walking", is_moving := true, direction := e.data.direction,
                 walking_speed := e.data.speed }
      else b
  else if e.event_type = "start_walk_direction_timed" then
    mapBlobId w e.blob_id fun b =>
      if b.alive then
        { b with state := "walking_timed", is_moving := true, direction := e.data.direction,
                 walking_speed := e.data.speed,
                 action_end_time := some (e.data.start_time + e.data.duration) }
      else b
  else if e.event_type = "end_walk_direction_timed" then
    go_idle w e.blob_id
  else if e.event_type = "start_rest" then
    mapBlobId w e.blob_id fun b =>
      if b.alive then
        { b with state := "resting", energy := b.energy + 10,
                 action_end_time := some (e.data.start_time + e.data.duration) }
      else b
  else if e.event_type = "end_rest" then
    go_idle w e.blob_id
  else if e.event_type = "end_interaction" then
    { w with population := w.population.map fun b =>
        if b.id ∈ e.data.participants ∧
            b.current_interaction_id = some e.data.interaction_id then
          { b with interaction_state := "free", current_interaction_id := none,
                   interaction_end_time := 0 }
        else b }
  else w

/-- One step of `World.handle_decisions_events_needed`'s loop body for the
blob `bid`: ask `decide_action` (random draws supplied by `rng`), schedule
the start event at the current time plus — for timed actions — the matching
end event at `time + duration`, then remove the blob from the undecided list
(`list.remove`, i.e. first occurrence). -/
def decisionStep (rng : Nat → RngDraw) (w : World) (bid : Nat) : World :=
  let t := w.current_sim_time
  match (nth (w.population.filter fun b => b.id = bid) 0).decide_action (rng bid) with
  | Decision.walkTimed dir speed dur =>
    let ev1 := schedule_event w.events t "start_walk_direction_timed" bid
      { direction := dir, speed := speed, duration := dur, start_time := t,
        interaction_id := "", participants := [] }
    let ev2 := schedule_event ev1 (t + dur) "end_walk_direction_timed" bid EventData.none
    { w with events := ev2, undecided := w.undecided.erase bid }
  | Decision.rest dur =>
    let ev1 := schedule_event w.events t "start_rest" bid
      { direction := (0, 0, 0), speed := 0, duration := dur, start_time := t,
        interaction_id := "", participants := [] }
    let ev2 := schedule_event ev1 (t + dur) "end_rest" bid EventData.none
    { w with events := ev2, undecided := w.undecided.erase bid }

/-- `World.handle_decisions_events_needed`: iterate over a copy of the
undecided list, asking each listed blob for a decision.  There is no
aliveness filter — every blob in the copied list is asked. -/
def handle_decisions (w : World) (rng : Nat → RngDraw) : World :=
  w.undecided.foldl (decisionStep rng) w

/-- `check_all_interactions` STEP 1: an `occupied` blob whose interaction end
time has been reached returns to `free`. -/
def freeExpired (now : ℚ) (b : Blob) : Blob :=
  if b.interaction_state = "occupied" ∧ now ≥ b.interaction_end_time then
    { b with interaction_state := "free", current_interaction_id := none,
             interaction_end_time := 0 }
  else b

/-- The index pairs `(i, j)`, `i < j`, visited by the nested loops of
`check_all_interactions` STEP 3, in visit order. -/
def allPairs (n : Nat) : List (Nat × Nat) :=
  (List.range n).flatMap fun i => (List.range' (i + 1) (n - (i + 1))).map fun j => (i, j)

/-- STEP 3 loop body for the pair `(i, j)`: skip dead blobs and pairs where
both participants are `occupied`; otherwise classify by the two visual-range
tests on the distance taken from the parallel `blob_locations` array (see
`dist2`/`canSee` for the squared-distance encoding of `distance <= range`).
The accumulator threads Python's `interaction_counter` and the
`interactions_this_frame` list. -/
def pairStep (pop : List Blob) (locs : List Vec3)
    (st : Nat × List Interaction) (ij : Nat × Nat) : Nat × List Interaction :=
  let a := nth pop ij.1
  let b := nth pop ij.2
  if ¬ a.alive then st
  else if ¬ b.alive then st
  else if a.interaction_state = "occupied" ∧ b.interaction_state = "occupied" then st
  else
    let d2 := dist2 (nth locs ij.1) (nth locs ij.2)
    let a_can_see_b := canSee d2 a.visual_range
    let b_can_see_a := canSee d2 b.visual_range
    if a_can_see_b ∧ b_can_see_a then
      (st.1 + 1, st.2 ++ [⟨"blob_mutual_" ++ toString st.1,
        [Part.blob a.id, Part.blob b.id], "blob_mutual"⟩])
    else if a_can_see_b ∧ ¬ b_can_see_a then
      (st.1 + 1, st.2 ++ [⟨"blob_one_sided_" ++ toString st.1,
        [Part.blob a.id, Part.blob b.id], "blob_one_sided"⟩])
    else if ¬ a_can_see_b ∧ b_can_see_a then
      (st.1 + 1, st.2 ++ [⟨"blob_one_sided_" ++ toString st.1,
        [Part.blob b.id, Part.blob a.id], "blob_one_sided"⟩])
    else st

/-- STEP 4 loop body for blob index `i` against thing index `j`: dead blobs
are skipped, occupation is ignored, and only the blob's visual range is
tested (`np.where(blob_thing_distances[i, :] <= blob.visual_range)`). -/
def thingStep (pop : List Blob) (locs tlocs : List Vec3)
    (st : Nat × List Interaction) (ij : Nat × Nat) : Nat × List Interaction :=
  let b := nth pop ij.1
  if ¬ b.alive then st
  else if canSee (dist2 (nth locs ij.1) (nth tlocs ij.2)) b.visual_range then
    (st.1 + 1, st.2 ++ [⟨"blob_thing_" ++ toString st.1,
      [Part.blob b.id, Part.thing ij.2], "blob_thing"⟩])
  else st

/-- The index pairs visited by STEP 4: every blob index against every thing
index, things in ascending index order (`np.where` yields ascending indices). -/
def blobThingPairs (n tn : Nat) : List (Nat × Nat) :=
  (List.range n).flatMap fun i => (List.range tn).map fun j => (i, j)

/-- STEPs 2–4 of `check_all_interactions`: the `interactions_this_frame` list,
in detection order.  Distances are computed from the world's parallel
`blob_locations` / `things_locations` arrays (STEP 2), not from the blobs'
own `location` fields. -/
def detectInteractions (w : World) : List Interaction :=
  let n := w.population.length
  let st1 := (allPairs n).foldl (pairStep w.population w.blob_locations) (0, [])
  let st2 :=
    if 0 < w.things.length ∧ 0 < w.things_locations.length then
      (blobThingPairs n w.things.length).foldl
        (thingStep w.population w.blob_locations w.things_locations) st1
    else st1
  st2.2

/-- `Interaction.process` / `_handle_blob_mutual_interaction`: a mutual
interaction marks both participants `occupied` with a shared end time
(`current_sim_time + 2.0`) and interaction id, and schedules a single
`end_interaction` event at that end time.  `blob_one_sided` and `blob_thing`
processing only logs; unknown types only warn. -/
def processInteraction (w : World) (inter : Interaction) : World :=
  if inter.itype = "blob_mutual" then
    match inter.participants with
    | [Part.blob a, Part.blob b] =>
      let end_time := w.current_sim_time + 2
      let occupy : Blob → Blob := fun blob =>
        { blob with interaction_state := "occupied",
                    current_interaction_id := some inter.iid,
                    interaction_end_time := end_time }
      let w' := mapBlobId (mapBlobId w a occupy) b occupy
      let data : EventData := ⟨(0, 0, 0), 0, 0, 0, inter.iid, [a, b]⟩
      { w' with events := schedule_event w'.events end_time "end_interaction" a data }
    | _ => w
  else w

/-- `World.check_all_interactions`: skip when at most one blob exists, free
expired occupations (STEP 1), detect this frame's interactions from the
parallel location arrays (STEPs 2–4), then process them once in detection
order (STEP 5). -/
def check_all_interactions (w : World) : World :=
  if w.population.length ≤ 1 then w
  else
    let w1 := { w with population := w.population.map (freeExpired w.current_sim_time) }
    (detectInteractions w1).foldl processInteraction w1

/-- Phase (1) of `World.update`: advance the simulation clock and derive the
calendar fields.  Python's `int(math.floor(t))` is `⌊t⌋`; `%` and `//` on a
positive `hours_per_day` are `Int.emod` and `Int.ediv`. -/
def clockPhase (w : World) (sim_delta_time : ℚ) : World :=
  let t := w.current_sim_time + sim_delta_time
  { w with current_sim_time := t,
           hour := ⌊t⌋,
           day_hour := Int.emod ⌊t⌋ w.hours_per_day + 1,
           day := Int.ediv ⌊t⌋ w.hours_per_day + 1 }

/-- Phase (2) of `World.update`: run the scheduler up to the new clock time.
`handle_event` never touches the queue (no action schedules events), so the
interleaved pop-and-execute loop of `process_events_until` equals popping the
due events first (`processUntil`) and then executing them in pop order. -/
def eventsPhase (w : World) : World :=
  let pr := processUntil w.events w.current_sim_time
  pr.1.foldl handle_event { w with events := pr.2 }

/-- Phases (1)–(2) of `World.update`: the state in which
`handle_decisions_events_needed` reads the undecided list; the blobs asked to
propose an action in a tick are exactly the members of
`(preDecision w δ).undecided`. -/
def preDecision (w : World) (sim_delta_time : ℚ) : World :=
  eventsPhase (clockPhase w sim_delta_time)

/-- Phase (4) of `World.update`: `blob.update(sim_delta_time)` for every
population member, dead or alive. -/
def movementPhase (w : World) (sim_delta_time : ℚ) : World :=
  { w with population :=
      w.population.map fun b => b.update sim_delta_time w.length w.width w.height }

/-- `World.update(sim_delta_time)`: clock, scheduler, decisions, movement,
interaction check — in the source's strict order. -/
def World.update (w : World) (sim_delta_time : ℚ) (rng : Nat → RngDraw) : World :=
  check_all_interactions
    (movementPhase (handle_decisions (preDecision w sim_delta_time) rng) sim_delta_time)

/-- The blob with id `bid`, if any (`Blob` objects are aliased by id). -/
def findBlob (w : World) (bid : Nat) : Option Blob :=
  w.population.find? fun b => b.id = bid

/-- The interactions `check_all_interactions` creates for one frame: none when
at most one blob exists, otherwise STEPs 2–4 on the STEP-1-freed population. -/
def frameInteractions (w : World) : List Interaction :=
  if w.population.length ≤ 1 then []
  else detectInteractions
    { w with population := w.population.map (freeExpired w.current_sim_time) }

/-- The interactions created during a whole tick `World.update w δ rng`
(detection runs on the post-movement state, phase (5) after phase (4)). -/
def tickInteractions (w : World) (sim_delta_time : ℚ) (rng : Nat → RngDraw) :
    List Interaction :=
  frameInteractions (movementPhase (handle_decisions (preDecision w sim_delta_time) rng)
    sim_delta_time)

/-- The blob ids `handle_decisions_events_needed` asks for a decision during a
tick: the undecided list as it stands after phases (1)–(2); `handle_decisions`
folds `decisionStep` — which always invokes `decide_action` — over exactly
this list. -/
def askedIds (w : World) (sim_delta_time : ℚ) : List Nat :=
  (preDecision w sim_delta_time).undecided

/-! ## Engine timing (`sim_engine.py`) -/

/-- `SimEngine.handle_timings`, with the wall clock reading `time.time()`
passed in as `now`.  Returns the new `simulation_time`, the `sim_delta_time`
of the tick, and the new `last_update_time`.  The wall-clock delta is capped
at 0.1 s before scaling by the time multiplier. -/
def handle_timings (simulation_time last_update_time now time_multiplier : ℚ) :
    ℚ × ℚ × ℚ :=
  let real_delta_time := now - last_update_time
  let capped_real_delta_time := min real_delta_time (1 / 10)
  let sim_delta_time := capped_real_delta_time * time_multiplier
  (simulation_time + sim_delta_time, sim_delta_time, now)

/-! ## Renderer data queue (`sim_engine.py`, `update_and_send_renderer_data`)

`Queue(maxsize=10)`, FIFO: the list head is the oldest entry.  With no
consumer running, `put_nowait` succeeds exactly when fewer than 10 items are
queued; on `queue.Full` the producer removes the oldest item (`get_nowait`)
and inserts the new one. -/

/-- One snapshot production: non-blocking enqueue with drop-oldest on a full
queue. -/
def enqueueSnapshot {α : Type} (q : List α) (s : α) : List α :=
  if q.length < 10 then q ++ [s] else q.drop 1 ++ [s]

/-- A sequence of snapshot productions with no consumption in between. -/
def produceAll {α : Type} (snaps : List α) : List α :=
  snaps.foldl enqueueSnapshot []

/-! ## Concrete worlds used as failing inputs / witnesses

World dimensions `(100, 100, 5)` and `hours_per_day = 10` are the values of
`settings.py`; blob parameters `(lifespan, energy, walking_speed, radius)`
are per-run settings.  All ticks use `sim_delta_time = 1` (one simulated
hour) and the random draws are fixed per blob id. -/

/-- Default blob settings of `settings.py` (lifespan shortened where a trace
needs a death; lifespan is the configurable `BLOB_AVERAGE_LIFESPAN`). -/
def stdParams : BlobParams := ⟨100, 100, 5, 5⟩

/-- Two blobs born 6 units apart; blob 1 will walk toward blob 2. -/
def w0C1 : World :=
  blob_birth (blob_birth (mkWorld 100 100 5 10) (0, 0, 0) stdParams) (6, 0, 0) stdParams

/-- Blob 1 chooses a 5-hour walk in direction `+x`; blob 2 keeps resting. -/
def rngWalker : Nat → RngDraw := fun bid =>
  if bid = 1 then ⟨true, (1, 0, 0), 5, 1 / 2⟩ else ⟨false, (1, 0, 0), 5, 1 / 2⟩

def tick1C1 : World := World.update w0C1 1 rngWalker
def tick2C1 : World := World.update tick1C1 1 rngWalker

/-- Blob 1 born one step from the `x = 100` wall, walking `+x` at speed 5;
blob 2 far away and resting. -/
def w0C2 : World :=
  blob_birth (blob_birth (mkWorld 100 100 5 10) (95, 0, 0) stdParams) (0, 50, 0) stdParams

def tick1C2 : World := World.update w0C2 1 rngWalker
def tick2C2 : World := World.update tick1C2 1 rngWalker

/-- A lone blob with lifespan 5/4 that keeps choosing half-hour rests: it dies
at age 2 while its second rest is pending, and the rest's end event re-enters
it into the undecided list after death. -/
def w0C3 : World := blob_birth (mkWorld 100 100 5 10) (0, 0, 0) ⟨5 / 4, 100, 5, 5⟩

def rngRester : Nat → RngDraw := fun _ => ⟨false, (1, 0, 0), 5, 1 / 2⟩

def tick1C3 : World := World.update w0C3 1 rngRester
def tick2C3 : World := World.update tick1C3 1 rngRester

/-- The min-heap property of CPython's `heapq`: every entry is at least its
parent (`heap[i] >= heap[(i-1)//2]`), comparing events by `Event.__lt__`,
i.e. by scheduled time. -/
def IsHeap (l : List Event) : Prop :=
  ∀ i, i < l.length → 0 < i → (nth l ((i - 1) / 2)).time ≤ (nth l i).time

instance (l : List Event) : Decidable (IsHeap l) :=
  Nat.decidableBallLT l.length fun i _ => 0 < i → (nth l ((i - 1) / 2)).time ≤ (nth l i).time

/-- The state `_siftdown` maintains while moving the item at `pos` up: every
parent/child edge holds except possibly the one into `pos`, and the item
above `pos` is at most every child of `pos` (so it can move down a level). -/
def HeapExceptUp (l : List Event) (pos : Nat) : Prop :=
  (∀ i, i < l.length → 0 < i → i ≠ pos → (nth l ((i - 1) / 2)).time ≤ (nth l i).time) ∧
  (∀ i, i < l.length → 0 < i → (i - 1) / 2 = pos → 0 < pos →
    (nth l ((pos - 1) / 2)).time ≤ (nth l i).time)

/-- The state `_siftup` maintains while walking the hole at `pos` down: every
edge not incident to `pos` holds, and whatever sits above `pos` is at most
every child of `pos`. -/
def HeapExceptDown (l : List Event) (pos : Nat) : Prop :=
  (∀ i, i < l.length → 0 < i → i ≠ pos → (i - 1) / 2 ≠ pos →
    (nth l ((i - 1) / 2)).time ≤ (nth l i).time) ∧
  (∀ i, i < l.length → 0 < i → (i - 1) / 2 = pos → 0 < pos →
    (nth l ((pos - 1) / 2)).time ≤ (nth l i).time)

/-- What the detector's blob–blob loop (STEP 3) guarantees about an
interaction it creates for the index pair `ij`: both blobs were alive, they
were not both `occupied`, and the participants are exactly those two blobs
(observer first for one-sided sightings). -/
def MadeByPair (pop : List Blob) (ij : Nat × Nat) (inter : Interaction) : Prop :=
  (nth pop ij.1).alive = true ∧ (nth pop ij.2).alive = true ∧
  ¬ ((nth pop ij.1).interaction_state = "occupied" ∧
     (nth pop ij.2).interaction_state = "occupied") ∧
  (inter.participants = [Part.blob (nth pop ij.1).id, Part.blob (nth pop ij.2).id] ∨
   inter.participants = [Part.blob (nth pop ij.2).id, Part.blob (nth pop ij.1).id])

/-- What the detector's blob–thing loop (STEP 4) guarantees about an
interaction it creates: the blob was alive and the participants are one blob
and one thing. -/
def MadeByThing (pop : List Blob) (ij : Nat × Nat) (inter : Interaction) : Prop :=
  (nth pop ij.1).alive = true ∧
  inter.participants = [Part.blob (nth pop ij.1).id, Part.thing ij.2]

/-- The simulation clock and the calendar fields derived from it. -/
def clockFields (w : World) : ℚ × ℤ × ℤ × ℤ :=
  (w.current_sim_time, w.hour, w.day_hour, w.day)

/-- Age, aliveness and lifespan — the fields the death rule concerns. -/
def vitals (b : Blob) : ℚ × Bool × ℚ :=
  (b.age, b.alive, b.lifespan)

/-- The ids of the population, in order. -/
def idsOf (w : World) : List Nat :=
  w.population.map fun b => b.id

/-- Two blobs born 2 units apart — within mutual visual range (3.0). -/
def wNear : World :=
  blob_birth (blob_birth (mkWorld 100 100 5 10) (0, 0, 0) stdParams) (2, 0, 0) stdParams

/-- One tick of `wNear`: both blobs rest, the detector sees a mutual
encounter and occupies both with a shared end time `1 + 2 = 3`. -/
def tickNear : World := World.update wNear 1 rngRester

/-- An event at time `t` tagged by its `event_type` (payload irrelevant to
scheduler ordering). -/
def evAt (t : ℚ) (tag : String) : Event :=
  ⟨t, tag, 0, EventData.none⟩

/-- The spec's event-ordering example: events scheduled at times [3, 1, 2]. -/
def heapC5 : List Event :=
  heappush (heappush (heappush [] (evAt 3 "three")) (evAt 1 "one")) (evAt 2 "two")

/-- Four events scheduled at the same time, in insertion order a, b, c, d. -/
def heapC6 : List Event :=
  heappush (heappush (heappush (heappush [] (evAt 1 "a")) (evAt 1 "b")) (evAt 1 "c"))
    (evAt 1 "d")

/-! # Proof development

## Unfolding and length lemmas for the embedded heapq -/

@[simp] theorem length_lswap {α : Type} [Inhabited α] (l : List α) (i j : Nat) :
    (lswap l i j).length = l.length := by
  simp [lswap]

theorem siftdownAux_congr (pos : Nat) :
    ∀ (fuel1 fuel2 : Nat) (l : List Event) (startpos : Nat), pos ≤ fuel1 → pos ≤ fuel2 →
      siftdownAux fuel1 l startpos pos = siftdownAux fuel2 l startpos pos := by
  induction pos using Nat.strong_induction_on with
  | _ pos ih =>
    intro fuel1 fuel2 l startpos h1 h2
    match fuel1, fuel2 with
    | 0, 0 => rfl
    | 0, f2 + 1 =>
      interval_cases pos
      simp [siftdownAux]
    | f1 + 1, 0 =>
      interval_cases pos
      simp [siftdownAux]
    | f1 + 1, f2 + 1 =>
      simp only [siftdownAux]
      split
      · split
        · exact ih ((pos - 1) / 2)
            (Nat.lt_of_le_of_lt (Nat.div_le_self _ _) (by omega)) f1 f2 _ _
            (by omega) (by omega)
        · rfl
      · rfl

/-- The recursion `siftdown` actually performs. -/
theorem siftdown_eq (l : List Event) (startpos pos : Nat) :
    siftdown l startpos pos =
      if startpos < pos then
        if (nth l pos).time < (nth l ((pos - 1) / 2)).time then
          siftdown (lswap l pos ((pos - 1) / 2)) startpos ((pos - 1) / 2)
        else l
      else l := by
  show siftdownAux pos l startpos pos = _
  match pos with
  | 0 => simp [siftdownAux]
  | p + 1 =>
    simp only [siftdownAux]
    split
    · split
      · exact siftdownAux_congr _ _ _ _ _
          (by omega) (le_refl _)
      · rfl
    · rfl

theorem siftupAux_congr (n : Nat) :
    ∀ (fuel1 fuel2 : Nat) (l : List Event) (startpos pos : Nat),
      l.length - pos = n → n ≤ fuel1 → n ≤ fuel2 →
      siftupAux fuel1 l startpos pos = siftupAux fuel2 l startpos pos := by
  induction n using Nat.strong_induction_on with
  | _ n ih =>
    intro fuel1 fuel2 l startpos pos hn h1 h2
    match fuel1, fuel2 with
    | 0, 0 => rfl
    | 0, f2 + 1 =>
      simp only [siftupAux]
      split
      · omega
      · rfl
    | f1 + 1, 0 =>
      simp only [siftupAux]
      split
      · omega
      · rfl
    | f1 + 1, f2 + 1 =>
      simp only [siftupAux]
      split
      · refine ih ((lswap l pos _).length - _) ?_ f1 f2 _ _ _ rfl (by simp only [length_lswap]; split at * <;> omega) (by simp only [length_lswap]; split at * <;> omega)
        simp only [length_lswap]
        split <;> omega
      · rfl

/-- The recursion `siftup` actually performs. -/
theorem siftup_eq (l : List Event) (startpos pos : Nat) :
    siftup l startpos pos =
      if 2 * pos + 1 < l.length then
        siftup
          (lswap l pos
            (if 2 * pos + 1 + 1 < l.length ∧
                ¬ (nth l (2 * pos + 1)).time < (nth l (2 * pos + 1 + 1)).time
             then 2 * pos + 1 + 1 else 2 * pos + 1))
          startpos
          (if 2 * pos + 1 + 1 < l.length ∧
              ¬ (nth l (2 * pos + 1)).time < (nth l (2 * pos + 1 + 1)).time
           then 2 * pos + 1 + 1 else 2 * pos + 1)
      else siftdown l startpos pos := by
  show siftupAux (l.length - pos) l startpos pos = _
  match hn : l.length - pos with
  | 0 =>
    simp only [siftupAux]
    rw [if_neg]
    omega
  | n + 1 =>
    simp only [siftupAux]
    split
    · refine siftupAux_congr ((lswap l pos _).length - _) _ _ _ _ _ rfl ?_ (le_refl _)
      simp only [length_lswap]
      split <;> omega
    · rfl

@[simp] theorem length_siftdown (pos : Nat) :
    ∀ (l : List Event) (startpos : Nat), (siftdown l startpos pos).length = l.length := by
  induction pos using Nat.strong_induction_on with
  | _ pos ih =>
    intro l startpos
    rw [siftdown_eq]
    split
    · split
      · rw [ih ((pos - 1) / 2) (Nat.lt_of_le_of_lt (Nat.div_le_self _ _) (by omega))]
        exact length_lswap ..
      · rfl
    · rfl

theorem length_siftup_aux (n : Nat) :
    ∀ (l : List Event) (startpos pos : Nat), l.length - pos = n →
      (siftup l startpos pos).length = l.length := by
  induction n using Nat.strong_induction_on with
  | _ n ih =>
    intro l startpos pos hn
    rw [siftup_eq]
    split
    · rw [ih ((lswap l pos _).length - _) (by simp only [length_lswap]; split <;> omega)
          _ _ _ rfl]
      exact length_lswap ..
    · exact length_siftdown ..

@[simp] theorem length_siftup (l : List Event) (startpos pos : Nat) :
    (siftup l startpos pos).length = l.length :=
  length_siftup_aux (l.length - pos) l startpos pos rfl

theorem heappop_length {l : List Event} {e : Event} {rest : List Event}
    (h : heappop l = some (e, rest)) : rest.length + 1 = l.length := by
  match l, h with
  | [x], h => cases h; rfl
  | x :: y :: xs, h =>
    cases h
    simp [length_siftup]

theorem processUntilAux_congr (n : Nat) :
    ∀ (fuel1 fuel2 : Nat) (l : List Event) (t : ℚ), l.length = n →
      n ≤ fuel1 → n ≤ fuel2 →
      processUntilAux fuel1 l t = processUntilAux fuel2 l t := by
  induction n using Nat.strong_induction_on with
  | _ n ih =>
    intro fuel1 fuel2 l t hn h1 h2
    match fuel1, fuel2 with
    | 0, 0 => rfl
    | 0, f2 + 1 =>
      have : l = [] := List.length_eq_zero.mp (by omega)
      subst this
      simp [processUntilAux, heappop]
    | f1 + 1, 0 =>
      have : l = [] := List.length_eq_zero.mp (by omega)
      subst this
      simp [processUntilAux, heappop]
    | f1 + 1, f2 + 1 =>
      cases hp : heappop l with
      | none => simp only [processUntilAux, hp]
      | some pr =>
        obtain ⟨e, rest⟩ := pr
        have hlen := heappop_length hp
        simp only [processUntilAux, hp]
        split
        · rw [ih rest.length (by omega) f1 f2 _ _ rfl (by omega) (by omega)]
        · rfl

/-- The recursion `processUntil` actually performs. -/
theorem processUntil_eq (l : List Event) (t : ℚ) :
    processUntil l t =
      match heappop l with
      | none => ([], l)
      | some (e, rest) =>
        if e.time ≤ t then
          ((e :: (processUntil rest t).1 : List Event), (processUntil rest t).2)
        else ([], l) := by
  show processUntilAux l.length l t = _
  match hl : l.length with
  | 0 =>
    have : l = [] := List.length_eq_zero.mp hl
    subst this
    simp [processUntilAux, heappop]
  | n + 1 =>
    cases hp : heappop l with
    | none => simp only [processUntilAux, hp]
    | some pr =>
      obtain ⟨e, rest⟩ := pr
      have hlen := heappop_length hp
      simp only [processUntilAux, hp]
      split
      · rw [show processUntilAux n rest t = processUntil rest t from
          processUntilAux_congr rest.length n rest.length _ _ rfl (by omega) (le_refl _)]
      · rfl

/-! ## Reading entries of swapped lists -/

theorem nth_set {α : Type} [Inhabited α] (l : List α) (m k : Nat) (v : α) :
    nth (l.set m v) k = if k = m ∧ k < l.length then v else nth l k := by
  by_cases hkm : k = m
  · subst hkm
    by_cases hk : k < l.length
    · simp [nth, List.getD, List.getElem?_set, hk]
    · simp [nth, List.getD, List.getElem?_set, hk,
        List.getElem?_eq_none (Nat.le_of_not_lt hk)]
  · rw [if_neg (fun h => hkm h.1)]
    simp only [nth, List.getD]
    rw [List.get?_set_ne v l (fun h : m = k => hkm h.symm)]

theorem nth_lswap {α : Type} [Inhabited α] (l : List α) (i j k : Nat)
    (hi : i < l.length) (hj : j < l.length) :
    nth (lswap l i j) k = if k = j then nth l i else if k = i then nth l j else nth l k := by
  simp only [lswap, nth_set, List.length_set]
  by_cases h1 : k = j
  · simp [h1, hj]
  · by_cases h2 : k = i <;> simp [h1, h2, hi]

/-! ## Permutation lemmas for the embedded heapq -/

theorem perm_nth_set {α : Type} [Inhabited α] :
    ∀ (t : List α) (k : Nat) (a : α), k < t.length →
      (nth t k :: t.set k a).Perm (a :: t) := by
  intro t
  induction t with
  | nil => intro k a h; simp at h
  | cons b s ih =>
    intro k a h
    cases k with
    | zero => exact List.Perm.swap a b s
    | succ k =>
      have hk : k < s.length := by simpa using h
      have e1 : (nth (b :: s) (k + 1) :: (b :: s).set (k + 1) a : List α)
          = nth s k :: b :: s.set k a := rfl
      rw [e1]
      exact (List.Perm.swap b (nth s k) _).trans
        ((List.Perm.cons b (ih k a hk)).trans (List.Perm.swap a b s))

theorem lswap_perm_lt {α : Type} [Inhabited α] :
    ∀ (l : List α) (i j : Nat), i < j → j < l.length → (lswap l i j).Perm l := by
  intro l
  induction l with
  | nil => intro i j hij hj; simp at hj
  | cons a t ih =>
    intro i j hij hj
    match i, j with
    | 0, j + 1 =>
      have hjt : j < t.length := by simpa using hj
      show (((a :: t).set 0 (nth (a :: t) (j + 1))).set (j + 1) (nth (a :: t) 0)).Perm (a :: t)
      have : ((a :: t).set 0 (nth (a :: t) (j + 1))).set (j + 1) (nth (a :: t) 0)
          = nth t j :: t.set j a := rfl
      rw [this]
      exact perm_nth_set t j a hjt
    | i + 1, j + 1 =>
      have hjt : j < t.length := by simpa using hj
      show (((a :: t).set (i + 1) (nth (a :: t) (j + 1))).set (j + 1)
        (nth (a :: t) (i + 1))).Perm (a :: t)
      have : ((a :: t).set (i + 1) (nth (a :: t) (j + 1))).set (j + 1) (nth (a :: t) (i + 1))
          = a :: lswap t i j := rfl
      rw [this]
      exact List.Perm.cons a (ih i j (by omega) hjt)

theorem lswap_comm {α : Type} [Inhabited α] (l : List α) (i j : Nat) (h : i ≠ j) :
    lswap l i j = lswap l j i := by
  simp only [lswap]
  exact List.set_comm _ _ _ h

theorem lswap_perm {α : Type} [Inhabited α] (l : List α) (i j : Nat) (hij : i ≠ j)
    (hi : i < l.length) (hj : j < l.length) : (lswap l i j).Perm l := by
  rcases Nat.lt_or_ge i j with h | h
  · exact lswap_perm_lt l i j h hj
  · rw [lswap_comm l i j hij]
    exact lswap_perm_lt l j i (by omega) hi

theorem siftdown_perm :
    ∀ (pos : Nat) (l : List Event), pos < l.length → (siftdown l 0 pos).Perm l := by
  intro pos
  induction pos using Nat.strong_induction_on with
  | _ pos ih =>
    intro l hpos
    rw [siftdown_eq]
    by_cases h0 : 0 < pos
    · rw [if_pos h0]
      set par := (pos - 1) / 2 with hpar
      have hparlt : par < pos := Nat.lt_of_le_of_lt (Nat.div_le_self _ _) (by omega)
      by_cases hcmp : (nth l pos).time < (nth l par).time
      · rw [if_pos hcmp]
        exact ((ih par hparlt _ (by simp; omega)).trans
          (lswap_perm l pos par (by omega) hpos (by omega)))
      · rw [if_neg hcmp]
    · rw [if_neg h0]

theorem siftup_perm_aux (n : Nat) :
    ∀ (l : List Event) (pos : Nat), l.length - pos = n → pos < l.length →
      (siftup l 0 pos).Perm l := by
  induction n using Nat.strong_induction_on with
  | _ n ih =>
    intro l pos hn hpos
    rw [siftup_eq]
    split
    · set c := if 2 * pos + 1 + 1 < l.length ∧
          ¬ (nth l (2 * pos + 1)).time < (nth l (2 * pos + 1 + 1)).time
        then 2 * pos + 1 + 1 else 2 * pos + 1 with hc
      have hclt : c < l.length := by
        rw [hc]; split <;> omega
      have hcgt : pos < c := by
        rw [hc]; split <;> omega
      refine ((ih ((lswap l pos c).length - c) ?_ _ _ rfl ?_).trans
        (lswap_perm l pos c (by omega) hpos hclt))
      · simp only [length_lswap]; omega
      · simp only [length_lswap]; omega
    · exact siftdown_perm pos l hpos

theorem siftup_perm (l : List Event) (pos : Nat) (hpos : pos < l.length) :
    (siftup l 0 pos).Perm l :=
  siftup_perm_aux (l.length - pos) l pos rfl hpos

theorem heappush_perm (l : List Event) (e : Event) : (heappush l e).Perm (e :: l) := by
  have h1 : (siftdown (l ++ [e]) 0 l.length).Perm (l ++ [e]) := by
    by_cases h0 : 0 < l.length
    · exact siftdown_perm l.length (l ++ [e]) (by simp)
    · have : l = [] := by cases l <;> simp_all
      subst this
      rw [siftdown_eq]
      simp
  exact h1.trans (List.perm_append_singleton e l)

theorem heappop_perm :
    ∀ (l : List Event) (e : Event) (rest : List Event),
      heappop l = some (e, rest) → (e :: rest).Perm l := by
  intro l e rest h
  match l with
  | [] => simp [heappop] at h
  | [x] =>
    simp only [heappop, Option.some.injEq, Prod.mk.injEq] at h
    rw [← h.1, ← h.2]
  | x :: y :: xs =>
    simp only [heappop, Option.some.injEq, Prod.mk.injEq] at h
    rw [← h.1, ← h.2]
    refine List.Perm.cons x ?_
    have hlen : 0 < ((x :: y :: xs).dropLast.set 0 ((x :: y :: xs).getLast (by simp))).length := by
      simp
    refine (siftup_perm _ 0 hlen).trans ?_
    have hd : (x :: y :: xs).dropLast = x :: (y :: xs).dropLast := rfl
    have hlast : (x :: y :: xs).getLast (by simp) = (y :: xs).getLast (by simp) := by
      simp [List.getLast_cons]
    rw [hd, hlast]
    show ((y :: xs).getLast (by simp) :: (y :: xs).dropLast).Perm (y :: xs)
    refine (List.perm_append_singleton _ _).symm.trans ?_
    rw [List.dropLast_append_getLast (by simp)]

/-! ## The binary-heap invariant and its preservation by heappush / heappop -/

theorem heapExceptUp_swap {l : List Event} {pos : Nat} (h0 : 0 < pos)
    (hpos : pos < l.length) (H : HeapExceptUp l pos)
    (hcmp : (nth l pos).time < (nth l ((pos - 1) / 2)).time) :
    HeapExceptUp (lswap l pos ((pos - 1) / 2)) ((pos - 1) / 2) := by
  obtain ⟨HA, HB⟩ := H
  set par := (pos - 1) / 2 with hparDef
  have hparlt : par < pos := Nat.lt_of_le_of_lt (Nat.div_le_self _ _) (by omega)
  have hpar : par < l.length := by omega
  have hv : ∀ k, nth (lswap l pos par) k
      = if k = par then nth l pos else if k = pos then nth l par else nth l k :=
    fun k => nth_lswap l pos par k hpos hpar
  constructor
  · intro i hi h0i hipar
    rw [length_lswap] at hi
    rw [hv i, hv ((i - 1) / 2)]
    rw [if_neg hipar]
    by_cases hip : i = pos
    · subst hip
      rw [if_pos rfl, if_pos rfl]
      exact le_of_lt hcmp
    · rw [if_neg hip]
      by_cases hppar : (i - 1) / 2 = par
      · rw [if_pos hppar]
        have hile : (nth l par).time ≤ (nth l i).time := by
          rw [← hppar]
          exact HA i hi h0i hip
        exact le_trans (le_of_lt hcmp) hile
      · rw [if_neg hppar]
        by_cases hppos : (i - 1) / 2 = pos
        · rw [if_pos hppos]
          exact HB i hi h0i hppos h0
        · rw [if_neg hppos]
          exact HA i hi h0i hip
  · intro i hi h0i hpi h0par
    rw [length_lswap] at hi
    have hgp : (par - 1) / 2 < par := Nat.lt_of_le_of_lt (Nat.div_le_self _ _) (by omega)
    have hgp_ne_par : (par - 1) / 2 ≠ par := by omega
    have hgp_ne_pos : (par - 1) / 2 ≠ pos := by omega
    rw [hv ((par - 1) / 2), if_neg hgp_ne_par, if_neg hgp_ne_pos]
    rw [hv i]
    by_cases hipar : i = par
    · omega
    · rw [if_neg hipar]
      by_cases hip : i = pos
      · subst hip
        rw [if_pos rfl]
        exact HA par hpar h0par (by omega)
      · rw [if_neg hip]
        have h1 : (nth l ((par - 1) / 2)).time ≤ (nth l par).time :=
          HA par hpar h0par (by omega)
        have h2 : (nth l par).time ≤ (nth l i).time := by
          have := HA i hi h0i hip
          rwa [hpi] at this
        exact le_trans h1 h2

theorem siftdown_isHeap :
    ∀ (pos : Nat) (l : List Event), pos < l.length → HeapExceptUp l pos →
      IsHeap (siftdown l 0 pos) := by
  intro pos
  induction pos using Nat.strong_induction_on with
  | _ pos ih =>
    intro l hpos H
    rw [siftdown_eq]
    by_cases h0 : 0 < pos
    · rw [if_pos h0]
      set par := (pos - 1) / 2 with hparDef
      have hparlt : par < pos := Nat.lt_of_le_of_lt (Nat.div_le_self _ _) (by omega)
      by_cases hcmp : (nth l pos).time < (nth l par).time
      · rw [if_pos hcmp]
        exact ih par hparlt _ (by simp; omega) (heapExceptUp_swap h0 hpos H hcmp)
      · rw [if_neg hcmp]
        intro i hi h0i
        by_cases hip : i = pos
        · subst hip
          exact le_of_not_lt hcmp
        · exact H.1 i hi h0i hip
    · rw [if_neg h0]
      intro i hi h0i
      exact H.1 i hi h0i (by omega)

theorem heappush_isHeap {l : List Event} (H : IsHeap l) (e : Event) :
    IsHeap (heappush l e) := by
  rw [heappush]
  refine siftdown_isHeap l.length (l ++ [e]) (by simp) ⟨?_, ?_⟩
  · intro i hi h0i hne
    simp only [List.length_append, List.length_singleton] at hi
    have hi' : i < l.length := by omega
    have hp' : (i - 1) / 2 < l.length := by
      have : (i - 1) / 2 ≤ i - 1 := Nat.div_le_self _ _
      omega
    have g1 : nth (l ++ [e]) i = nth l i := by
      simp [nth, List.getD, List.getElem?_append, hi']
    have g2 : nth (l ++ [e]) ((i - 1) / 2) = nth l ((i - 1) / 2) := by
      simp [nth, List.getD, List.getElem?_append, hp']
    rw [g1, g2]
    exact H i hi' h0i
  · intro i hi h0i hpi _
    simp only [List.length_append, List.length_singleton] at hi
    omega

theorem siftup_isHeap_aux (n : Nat) :
    ∀ (l : List Event) (pos : Nat), l.length - pos = n → pos < l.length →
      HeapExceptDown l pos → IsHeap (siftup l 0 pos) := by
  induction n using Nat.strong_induction_on with
  | _ n ih =>
    intro l pos hn hpos H
    obtain ⟨HA, HB⟩ := H
    rw [siftup_eq]
    split
    · rename_i hchild
      set c := if 2 * pos + 1 + 1 < l.length ∧
          ¬ (nth l (2 * pos + 1)).time < (nth l (2 * pos + 1 + 1)).time
        then 2 * pos + 1 + 1 else 2 * pos + 1 with hcDef
      have hclt : c < l.length := by rw [hcDef]; split <;> omega
      have hcgt : pos < c := by rw [hcDef]; split <;> omega
      have hcpar : (c - 1) / 2 = pos := by rw [hcDef]; split <;> omega
      -- the chosen child is at most the other child
      have hcmin : ∀ s, s < l.length → 0 < s → (s - 1) / 2 = pos → s ≠ c →
          (nth l c).time ≤ (nth l s).time := by
        intro s hs h0s hspar hsc
        have hs2 : s = 2 * pos + 1 ∨ s = 2 * pos + 1 + 1 := by omega
        by_cases hcond : 2 * pos + 1 + 1 < l.length ∧
            ¬ (nth l (2 * pos + 1)).time < (nth l (2 * pos + 1 + 1)).time
        · have hc2 : c = 2 * pos + 1 + 1 := by rw [hcDef, if_pos hcond]
          rcases hs2 with rfl | rfl
          · rw [hc2]
            exact le_of_not_lt hcond.2
          · exact absurd hc2.symm hsc
        · have hc1 : c = 2 * pos + 1 := by rw [hcDef, if_neg hcond]
          rcases hs2 with rfl | rfl
          · exact absurd hc1.symm hsc
          · rw [hc1]
            rcases not_and_or.mp hcond with h | h
            · exact absurd hs h
            · exact le_of_lt (not_not.mp h)
      have hv : ∀ k, nth (lswap l pos c) k
          = if k = c then nth l pos else if k = pos then nth l c else nth l k :=
        fun k => nth_lswap l pos c k hpos hclt
      refine ih ((lswap l pos c).length - c) (by simp only [length_lswap]; omega)
        _ _ rfl (by simp only [length_lswap]; omega) ⟨?_, ?_⟩
      · -- edges not incident to the new hole position c
        intro i hi h0i hic hpic
        rw [length_lswap] at hi
        rw [hv i, if_neg hic]
        rw [hv ((i - 1) / 2), if_neg hpic]
        by_cases hip : i = pos
        · -- edge into pos: above pos sits the old child value
          rw [if_pos hip, if_neg (show ¬ (i - 1) / 2 = pos from by omega), hip]
          exact HB c hclt (by omega) hcpar (by omega)
        · rw [if_neg hip]
          by_cases hppos : (i - 1) / 2 = pos
          · -- i is the sibling of c (the other child of pos)
            rw [if_pos hppos]
            exact hcmin i hi h0i hppos hic
          · rw [if_neg hppos]
            exact HA i hi h0i hip hppos
      · -- children of the new hole position c
        intro i hi h0i hpi _
        rw [length_lswap] at hi
        rw [hv i, if_neg (by omega), if_neg (by omega)]
        rw [hcpar, hv pos, if_neg (by omega), if_pos rfl]
        have := HA i hi h0i (by omega) (by rw [hpi]; omega)
        rwa [hpi] at this
    · rename_i hnochild
      -- pos is a leaf: the invariant collapses to `HeapExceptUp`
      refine siftdown_isHeap pos l hpos ⟨?_, HB⟩
      intro i hi h0i hip
      refine HA i hi h0i hip ?_
      intro hpi
      have : 2 * pos + 1 ≤ i := by omega
      omega

theorem siftup_isHeap {l : List Event} {pos : Nat} (hpos : pos < l.length)
    (H : HeapExceptDown l pos) : IsHeap (siftup l 0 pos) :=
  siftup_isHeap_aux (l.length - pos) l pos rfl hpos H

theorem heappop_isHeap :
    ∀ (l : List Event) (e : Event) (rest : List Event),
      IsHeap l → heappop l = some (e, rest) → IsHeap rest := by
  intro l e rest H h
  match l with
  | [] => simp [heappop] at h
  | [x] =>
    simp only [heappop, Option.some.injEq, Prod.mk.injEq] at h
    rw [← h.2]
    intro i hi h0i
    simp at hi
  | x :: y :: xs =>
    simp only [heappop, Option.some.injEq, Prod.mk.injEq] at h
    rw [← h.2]
    set d := (x :: y :: xs).dropLast.set 0 ((x :: y :: xs).getLast (by simp)) with hdDef
    have hdlen : d.length = xs.length + 1 := by simp [hdDef]
    refine siftup_isHeap (by omega) ⟨?_, ?_⟩
    · intro i hi h0i hip hpip
      have hdrop : ∀ k, k < xs.length + 1 →
          nth (x :: y :: xs).dropLast k = nth (x :: y :: xs) k := by
        intro k hk
        simp only [nth, List.getD, List.get?_eq_getElem?]
        rw [List.getElem?_dropLast, if_pos (by simp; omega)]
      have hin : nth d i = nth (x :: y :: xs) i := by
        rw [hdDef, nth_set, if_neg (fun hc => hip hc.1)]
        exact hdrop i (by omega)
      have hpn : nth d ((i - 1) / 2) = nth (x :: y :: xs) ((i - 1) / 2) := by
        rw [hdDef, nth_set, if_neg (fun hc => hpip hc.1)]
        refine hdrop _ ?_
        have : (i - 1) / 2 ≤ i - 1 := Nat.div_le_self _ _
        omega
      rw [hin, hpn]
      exact H i (by simp at hi ⊢; omega) h0i
    · intro i hi h0i hpi h0pos
      omega

/-- In a heap the root is a minimum. -/
theorem isHeap_root_le {l : List Event} (H : IsHeap l) :
    ∀ i, i < l.length → (nth l 0).time ≤ (nth l i).time := by
  intro i
  induction i using Nat.strong_induction_on with
  | _ i ih =>
    intro hi
    by_cases h0 : 0 < i
    · have hp : (i - 1) / 2 < i := Nat.lt_of_le_of_lt (Nat.div_le_self _ _) (by omega)
      exact le_trans (ih _ hp (by omega)) (H i hi h0)
    · have : i = 0 := by omega
      rw [this]

theorem nth_of_mem {α : Type} [Inhabited α] {l : List α} {x : α} (hx : x ∈ l) :
    ∃ i, i < l.length ∧ nth l i = x := by
  obtain ⟨i, hi, hget⟩ := List.mem_iff_getElem.mp hx
  exact ⟨i, hi, by rw [nth, List.getD_eq_getElem l default hi, hget]⟩

theorem heappop_root :
    ∀ (l : List Event) (e : Event) (rest : List Event),
      heappop l = some (e, rest) → e = nth l 0 := by
  intro l e rest h
  match l with
  | [] => simp [heappop] at h
  | [x] =>
    simp only [heappop, Option.some.injEq, Prod.mk.injEq] at h
    rw [← h.1]; rfl
  | x :: y :: xs =>
    simp only [heappop, Option.some.injEq, Prod.mk.injEq] at h
    rw [← h.1]; rfl

/-- The scheduler pops a minimum: in a heap, the returned event's time is at
most every queued event's time. -/
theorem heappop_min {l : List Event} {e : Event} {rest : List Event}
    (H : IsHeap l) (h : heappop l = some (e, rest)) :
    ∀ x ∈ l, e.time ≤ x.time := by
  intro x hx
  obtain ⟨i, hi, rfl⟩ := nth_of_mem hx
  rw [heappop_root l e rest h]
  exact isHeap_root_le H i hi

theorem heappop_none_iff (l : List Event) : heappop l = none ↔ l = [] := by
  match l with
  | [] => simp [heappop]
  | [x] => simp [heappop]
  | x :: y :: xs => simp [heappop]

/-- Correctness of `process_events_until` on heaps: the popped prefix is
exactly the multiset of events due at or before `t`, popped in non-decreasing
time order, and the remainder is exactly the multiset of events scheduled
after `t`. -/
theorem processUntil_spec_aux (n : Nat) :
    ∀ (l : List Event) (t : ℚ), l.length = n → IsHeap l →
      (processUntil l t).1.Perm (l.filter fun x => decide (x.time ≤ t)) ∧
      List.Pairwise (fun a b : Event => a.time ≤ b.time) (processUntil l t).1 ∧
      (processUntil l t).2.Perm (l.filter fun x => decide (¬ x.time ≤ t)) := by
  induction n using Nat.strong_induction_on with
  | _ n ih =>
    intro l t hn H
    rw [processUntil_eq]
    cases hp : heappop l with
    | none =>
      have : l = [] := (heappop_none_iff l).mp hp
      subst this
      simp
    | some pr =>
      obtain ⟨e, rest⟩ := pr
      dsimp only
      have hperm := heappop_perm l e rest hp
      have hrest : IsHeap rest := heappop_isHeap l e rest H hp
      have hmin : ∀ x ∈ l, e.time ≤ x.time := heappop_min H hp
      have hlen : rest.length + 1 = l.length := heappop_length hp
      by_cases hat : e.time ≤ t
      · rw [if_pos hat]
        obtain ⟨ih1, ih2, ih3⟩ := ih rest.length (by omega) rest t rfl hrest
        refine ⟨?_, ?_, ?_⟩
        · have hfl : (l.filter fun x => decide (x.time ≤ t)).Perm
              (e :: rest.filter fun x => decide (x.time ≤ t)) := by
            have hpf := hperm.filter (fun x => decide (x.time ≤ t))
            rw [List.filter_cons_of_pos (by simpa using hat)] at hpf
            exact hpf.symm
          exact (List.Perm.cons e ih1).trans hfl.symm
        · refine List.Pairwise.cons ?_ ih2
          intro b hb
          have hbf : b ∈ rest.filter fun x => decide (x.time ≤ t) := ih1.mem_iff.mp hb
          have hbrest : b ∈ rest := List.mem_of_mem_filter hbf
          exact hmin b (hperm.mem_iff.mp (List.mem_cons_of_mem e hbrest))
        · have hfl : (l.filter fun x => decide (¬ x.time ≤ t)).Perm
              (rest.filter fun x => decide (¬ x.time ≤ t)) := by
            have hpf := hperm.filter (fun x => decide (¬ x.time ≤ t))
            rw [List.filter_cons_of_neg (by simpa using hat)] at hpf
            exact hpf.symm
          exact ih3.trans hfl.symm
      · rw [if_neg hat]
        have hall : ∀ x ∈ l, ¬ x.time ≤ t := fun x hx hle =>
          hat (le_trans (hmin x hx) hle)
        refine ⟨?_, List.Pairwise.nil, ?_⟩
        · have hempty : l.filter (fun x => decide (x.time ≤ t)) = [] := by
            rw [List.filter_eq_nil]
            intro a ha
            simpa using hall a ha
          rw [hempty]
        · have hself : l.filter (fun x => decide (¬ x.time ≤ t)) = l := by
            rw [List.filter_eq_self]
            intro a ha
            simpa using hall a ha
          rw [hself]

theorem processUntil_spec (l : List Event) (t : ℚ) (H : IsHeap l) :
    (processUntil l t).1.Perm (l.filter fun x => decide (x.time ≤ t)) ∧
    List.Pairwise (fun a b : Event => a.time ≤ b.time) (processUntil l t).1 ∧
    (processUntil l t).2.Perm (l.filter fun x => decide (¬ x.time ≤ t)) :=
  processUntil_spec_aux l.length l t rfl H

/-! ## Preservation of fields across the tick phases -/

theorem map_comp_congr {α : Type} {f g : Blob → α} {h : Blob → Blob}
    (hf : ∀ b, f (h b) = g b) (l : List Blob) : (l.map h).map f = l.map g := by
  rw [List.map_map]
  exact List.map_congr_left fun b _ => hf b

theorem clockFields_handle_event (w : World) (e : Event) :
    clockFields (handle_event w e) = clockFields w := by
  unfold handle_event go_idle mapBlobId
  split_ifs <;> rfl

theorem clockFields_foldl_handle_event :
    ∀ (es : List Event) (w : World), clockFields (es.foldl handle_event w) = clockFields w := by
  intro es
  induction es with
  | nil => intro w; rfl
  | cons e es ih =>
    intro w
    rw [List.foldl_cons, ih, clockFields_handle_event]

theorem clockFields_eventsPhase (w : World) : clockFields (eventsPhase w) = clockFields w := by
  unfold eventsPhase
  rw [clockFields_foldl_handle_event]
  rfl

theorem clockFields_decisionStep (rng : Nat → RngDraw) (w : World) (bid : Nat) :
    clockFields (decisionStep rng w bid) = clockFields w := by
  unfold decisionStep
  cases (nth (w.population.filter fun b => b.id = bid) 0).decide_action (rng bid) <;> rfl

theorem clockFields_handle_decisions (w : World) (rng : Nat → RngDraw) :
    clockFields (handle_decisions w rng) = clockFields w := by
  unfold handle_decisions
  generalize w.undecided = bids
  induction bids generalizing w with
  | nil => rfl
  | cons b bs ih =>
    rw [List.foldl_cons, ih, clockFields_decisionStep]

theorem clockFields_processInteraction (w : World) (inter : Interaction) :
    clockFields (processInteraction w inter) = clockFields w := by
  unfold processInteraction mapBlobId
  split
  · split <;> rfl
  · rfl

theorem clockFields_foldl_processInteraction :
    ∀ (inters : List Interaction) (w : World),
      clockFields (inters.foldl processInteraction w) = clockFields w := by
  intro inters
  induction inters with
  | nil => intro w; rfl
  | cons i is ih =>
    intro w
    rw [List.foldl_cons, ih, clockFields_processInteraction]

theorem clockFields_check_all_interactions (w : World) :
    clockFields (check_all_interactions w) = clockFields w := by
  unfold check_all_interactions
  split
  · rfl
  · rw [clockFields_foldl_processInteraction]
    rfl

/-- All phases after phase (1) leave the clock and calendar fields alone. -/
theorem clockFields_update (w : World) (sim_delta_time : ℚ) (rng : Nat → RngDraw) :
    clockFields (World.update w sim_delta_time rng) = clockFields (clockPhase w sim_delta_time) := by
  unfold World.update movementPhase preDecision
  rw [clockFields_check_all_interactions]
  show clockFields (handle_decisions (eventsPhase (clockPhase w sim_delta_time)) rng) = _
  rw [clockFields_handle_decisions, clockFields_eventsPhase]

/-! ## Vitals (age / alive / lifespan) across a tick -/

theorem vitals_freeExpired (now : ℚ) (b : Blob) : vitals (freeExpired now b) = vitals b := by
  unfold freeExpired
  split <;> rfl

theorem vitals_processInteraction (w : World) (inter : Interaction) :
    (processInteraction w inter).population.map vitals = w.population.map vitals := by
  unfold processInteraction mapBlobId
  split
  · split
    · exact (map_comp_congr (fun b => by split_ifs <;> rfl) _).trans
        (map_comp_congr (fun b => by split_ifs <;> rfl) _)
    · rfl
  · rfl

theorem vitals_foldl_processInteraction :
    ∀ (inters : List Interaction) (w : World),
      (inters.foldl processInteraction w).population.map vitals = w.population.map vitals := by
  intro inters
  induction inters with
  | nil => intro w; rfl
  | cons i is ih =>
    intro w
    rw [List.foldl_cons, ih, vitals_processInteraction]

theorem vitals_check_all_interactions (w : World) :
    (check_all_interactions w).population.map vitals = w.population.map vitals := by
  unfold check_all_interactions
  split
  · rfl
  · rw [vitals_foldl_processInteraction]
    exact map_comp_congr (fun b => vitals_freeExpired _ b) _

theorem Blob.update_age (b : Blob) (sim_delta_time L W H : ℚ) :
    (b.update sim_delta_time L W H).age = b.age + sim_delta_time := by
  unfold Blob.update
  dsimp only
  split_ifs <;> rfl

theorem Blob.update_lifespan (b : Blob) (sim_delta_time L W H : ℚ) :
    (b.update sim_delta_time L W H).lifespan = b.lifespan := by
  unfold Blob.update
  dsimp only
  split_ifs <;> rfl

theorem Blob.update_alive (b : Blob) (sim_delta_time L W H : ℚ) :
    (b.update sim_delta_time L W H).alive
      = if b.age + sim_delta_time > b.lifespan then false else b.alive := by
  unfold Blob.update
  dsimp only
  split_ifs <;> rfl

/-- `Blob.update` enforces the death rule on its result. -/
theorem Blob.update_age_dead (b : Blob) (sim_delta_time L W H : ℚ) :
    (b.update sim_delta_time L W H).age > (b.update sim_delta_time L W H).lifespan →
      (b.update sim_delta_time L W H).alive = false := by
  rw [Blob.update_age, Blob.update_lifespan, Blob.update_alive]
  intro h
  rw [if_pos h]

/-! ## Population ids across a tick -/

theorem ids_handle_event (w : World) (e : Event) : idsOf (handle_event w e) = idsOf w := by
  unfold handle_event go_idle mapBlobId idsOf
  split_ifs <;>
    first
    | rfl
    | exact map_comp_congr (fun b => by try dsimp only
                                        split_ifs <;> rfl) _

theorem ids_foldl_handle_event :
    ∀ (es : List Event) (w : World), idsOf (es.foldl handle_event w) = idsOf w := by
  intro es
  induction es with
  | nil => intro w; rfl
  | cons e es ih =>
    intro w
    rw [List.foldl_cons, ih, ids_handle_event]

theorem ids_eventsPhase (w : World) : idsOf (eventsPhase w) = idsOf w := by
  unfold eventsPhase
  rw [ids_foldl_handle_event]
  rfl

theorem ids_decisionStep (rng : Nat → RngDraw) (w : World) (bid : Nat) :
    idsOf (decisionStep rng w bid) = idsOf w := by
  unfold decisionStep
  cases (nth (w.population.filter fun b => b.id = bid) 0).decide_action (rng bid) <;> rfl

theorem ids_handle_decisions (w : World) (rng : Nat → RngDraw) :
    idsOf (handle_decisions w rng) = idsOf w := by
  unfold handle_decisions
  generalize w.undecided = bids
  induction bids generalizing w with
  | nil => rfl
  | cons b bs ih =>
    rw [List.foldl_cons, ih, ids_decisionStep]

theorem ids_processInteraction (w : World) (inter : Interaction) :
    idsOf (processInteraction w inter) = idsOf w := by
  unfold processInteraction mapBlobId idsOf
  split
  · split
    · exact (map_comp_congr (fun b => by split_ifs <;> rfl) _).trans
        (map_comp_congr (fun b => by split_ifs <;> rfl) _)
    · rfl
  · rfl

theorem ids_foldl_processInteraction :
    ∀ (inters : List Interaction) (w : World),
      idsOf (inters.foldl processInteraction w) = idsOf w := by
  intro inters
  induction inters with
  | nil => intro w; rfl
  | cons i is ih =>
    intro w
    rw [List.foldl_cons, ih, ids_processInteraction]

theorem ids_check_all_interactions (w : World) :
    idsOf (check_all_interactions w) = idsOf w := by
  unfold check_all_interactions
  split
  · rfl
  · rw [ids_foldl_processInteraction]
    exact map_comp_congr (fun b => by unfold freeExpired; split <;> rfl) _

theorem ids_movementPhase (w : World) (sim_delta_time : ℚ) :
    idsOf (movementPhase w sim_delta_time) = idsOf w := by
  unfold movementPhase idsOf
  exact map_comp_congr (fun b => by unfold Blob.update; dsimp only; split_ifs <;> rfl) _

/-- Death is a state flag, not a removal: a tick never changes the id list of
the population. -/
theorem ids_update (w : World) (sim_delta_time : ℚ) (rng : Nat → RngDraw) :
    idsOf (World.update w sim_delta_time rng) = idsOf w := by
  unfold World.update preDecision
  rw [ids_check_all_interactions, ids_movementPhase, ids_handle_decisions,
    ids_eventsPhase]
  rfl

/-! ## Soundness of the interaction detector's loops -/

theorem pairStep_cases (pop : List Blob) (locs : List Vec3) (st : Nat × List Interaction)
    (ij : Nat × Nat) :
    (pairStep pop locs st ij).2 = st.2 ∨
    ∃ inter, (pairStep pop locs st ij).2 = st.2 ++ [inter] ∧ MadeByPair pop ij inter := by
  unfold pairStep
  dsimp only
  split_ifs with h1 h2 h3 h4 h5 h6 <;>
    first
    | (left; rfl)
    | (right; exact ⟨_, rfl, by assumption, by assumption, by assumption, Or.inl rfl⟩)
    | (right; exact ⟨_, rfl, by assumption, by assumption, by assumption, Or.inr rfl⟩)

theorem thingStep_cases (pop : List Blob) (locs tlocs : List Vec3)
    (st : Nat × List Interaction) (ij : Nat × Nat) :
    (thingStep pop locs tlocs st ij).2 = st.2 ∨
    ∃ inter, (thingStep pop locs tlocs st ij).2 = st.2 ++ [inter] ∧
      MadeByThing pop ij inter := by
  unfold thingStep
  dsimp only
  split_ifs with h1 h2 <;>
    first
    | (left; rfl)
    | (right; exact ⟨_, rfl, by assumption, rfl⟩)

theorem foldl_pairStep_mem (pop : List Blob) (locs : List Vec3) :
    ∀ (pairs : List (Nat × Nat)) (st : Nat × List Interaction) (inter : Interaction),
      inter ∈ (pairs.foldl (pairStep pop locs) st).2 →
      inter ∈ st.2 ∨ ∃ ij ∈ pairs, MadeByPair pop ij inter := by
  intro pairs
  induction pairs with
  | nil =>
    intro st inter h
    exact Or.inl h
  | cons ij rest ih =>
    intro st inter h
    rw [List.foldl_cons] at h
    rcases ih _ inter h with hmem | ⟨ij', hij', hm⟩
    · rcases pairStep_cases pop locs st ij with hc | ⟨inter', hc, hm'⟩
      · rw [hc] at hmem
        exact Or.inl hmem
      · rw [hc] at hmem
        rcases List.mem_append.mp hmem with hmem | hmem
        · exact Or.inl hmem
        · rw [List.mem_singleton.mp hmem]
          exact Or.inr ⟨ij, List.mem_cons_self ij rest, hm'⟩
    · exact Or.inr ⟨ij', List.mem_cons_of_mem ij hij', hm⟩

theorem foldl_thingStep_mem (pop : List Blob) (locs tlocs : List Vec3) :
    ∀ (pairs : List (Nat × Nat)) (st : Nat × List Interaction) (inter : Interaction),
      inter ∈ (pairs.foldl (thingStep pop locs tlocs) st).2 →
      inter ∈ st.2 ∨ ∃ ij ∈ pairs, MadeByThing pop ij inter := by
  intro pairs
  induction pairs with
  | nil =>
    intro st inter h
    exact Or.inl h
  | cons ij rest ih =>
    intro st inter h
    rw [List.foldl_cons] at h
    rcases ih _ inter h with hmem | ⟨ij', hij', hm⟩
    · rcases thingStep_cases pop locs tlocs st ij with hc | ⟨inter', hc, hm'⟩
      · rw [hc] at hmem
        exact Or.inl hmem
      · rw [hc] at hmem
        rcases List.mem_append.mp hmem with hmem | hmem
        · exact Or.inl hmem
        · rw [List.mem_singleton.mp hmem]
          exact Or.inr ⟨ij, List.mem_cons_self ij rest, hm'⟩
    · exact Or.inr ⟨ij', List.mem_cons_of_mem ij hij', hm⟩

theorem mem_allPairs {n : Nat} {ij : Nat × Nat} (h : ij ∈ allPairs n) :
    ij.1 < ij.2 ∧ ij.2 < n := by
  unfold allPairs at h
  rw [List.mem_flatMap] at h
  obtain ⟨i, hi, hmem⟩ := h
  rw [List.mem_map] at hmem
  obtain ⟨j, hj, rfl⟩ := hmem
  rw [List.mem_range] at hi
  rw [List.mem_range'] at hj
  obtain ⟨k, hk, rfl⟩ := hj
  constructor <;> simp <;> omega

theorem mem_blobThingPairs {n tn : Nat} {ij : Nat × Nat} (h : ij ∈ blobThingPairs n tn) :
    ij.1 < n ∧ ij.2 < tn := by
  unfold blobThingPairs at h
  rw [List.mem_flatMap] at h
  obtain ⟨i, hi, hmem⟩ := h
  rw [List.mem_map] at hmem
  obtain ⟨j, hj, rfl⟩ := hmem
  rw [List.mem_range] at hi
  rw [List.mem_range] at hj
  exact ⟨hi, hj⟩

/-- Every interaction the detector creates comes from the blob–blob loop
(with in-range indices) or the blob–thing loop. -/
theorem detectInteractions_mem (w : World) (inter : Interaction)
    (h : inter ∈ detectInteractions w) :
    (∃ ij : Nat × Nat, ij.1 < ij.2 ∧ ij.2 < w.population.length ∧
      MadeByPair w.population ij inter) ∨
    (∃ ij : Nat × Nat, ij.1 < w.population.length ∧ MadeByThing w.population ij inter) := by
  unfold detectInteractions at h
  dsimp only at h
  have hpair : ∀ inter' : Interaction,
      inter' ∈ ((allPairs w.population.length).foldl
        (pairStep w.population w.blob_locations) (0, [])).2 →
      ∃ ij : Nat × Nat, ij.1 < ij.2 ∧ ij.2 < w.population.length ∧
        MadeByPair w.population ij inter' := by
    intro inter' h'
    rcases foldl_pairStep_mem w.population w.blob_locations _ _ inter' h' with hm | ⟨ij, hij, hm⟩
    · simp at hm
    · obtain ⟨h1, h2⟩ := mem_allPairs hij
      exact ⟨ij, h1, h2, hm⟩
  split at h
  · rcases foldl_thingStep_mem w.population w.blob_locations w.things_locations
        _ _ inter h with hm | ⟨ij, hij, hm⟩
    · exact Or.inl (hpair inter hm)
    · exact Or.inr ⟨ij, (mem_blobThingPairs hij).1, hm⟩
  · exact Or.inl (hpair inter h)

theorem nth_mem {α : Type} [Inhabited α] {l : List α} {i : Nat} (hi : i < l.length) :
    nth l i ∈ l := by
  rw [nth, List.getD_eq_getElem l default hi]
  exact List.getElem_mem hi

theorem nth_map {α β : Type} [Inhabited α] [Inhabited β] (f : α → β) (l : List α) (i : Nat)
    (hi : i < l.length) : nth (l.map f) i = f (nth l i) := by
  rw [nth, nth, List.getD_eq_getElem l default hi,
    List.getD_eq_getElem (l.map f) default (by simpa using hi)]
  simp

theorem freeExpired_id (now : ℚ) (b : Blob) : (freeExpired now b).id = b.id := by
  unfold freeExpired
  split <;> rfl

theorem freeExpired_alive (now : ℚ) (b : Blob) : (freeExpired now b).alive = b.alive := by
  unfold freeExpired
  split <;> rfl

/-- An `occupied` blob whose end time has not been reached yet is left alone
by STEP 1. -/
theorem freeExpired_of_not_expired {now : ℚ} {b : Blob}
    (h : now < b.interaction_end_time) : freeExpired now b = b := by
  unfold freeExpired
  rw [if_neg]
  intro hc
  exact absurd hc.2 (not_le.mpr h)

/-- Processing a `blob_mutual` interaction: both participants become
`occupied` with the shared interaction id and the shared end time
`current_sim_time + 2.0`, and exactly one `end_interaction` event is added to
the scheduler queue. -/
theorem processInteraction_mutual (w : World) (iid : String) (a b : Nat) :
    ((processInteraction w ⟨iid, [Part.blob a, Part.blob b], "blob_mutual"⟩).events).Perm
      (⟨w.current_sim_time + 2, "end_interaction", a,
        ⟨(0, 0, 0), 0, 0, 0, iid, [a, b]⟩⟩ :: w.events) ∧
    ∀ blob ∈ (processInteraction w ⟨iid, [Part.blob a, Part.blob b], "blob_mutual"⟩).population,
      blob.id = a ∨ blob.id = b →
      blob.interaction_state = "occupied" ∧
      blob.current_interaction_id = some iid ∧
      blob.interaction_end_time = w.current_sim_time + 2 := by
  unfold processInteraction mapBlobId
  rw [if_pos rfl]
  try dsimp only
  constructor
  · exact heappush_perm w.events _
  · intro blob hb hid
    obtain ⟨b1, hb1, rfl⟩ := List.mem_map.mp hb
    obtain ⟨b0, hb0, rfl⟩ := List.mem_map.mp hb1
    try dsimp only at hid ⊢
    split_ifs with h1 h2 h3 <;>
      first
        | exact ⟨rfl, rfl, rfl⟩
        | (exfalso; rcases hid with h | h <;> simp_all)

/-- Dead blobs never appear among the participants of a detected
interaction: every blob participant of a frame's interaction is an alive
member of the population. -/
theorem frameInteractions_alive (w : World) (inter : Interaction)
    (h : inter ∈ frameInteractions w) (id : Nat)
    (hid : Part.blob id ∈ inter.participants) :
    ∃ b ∈ w.population, b.id = id ∧ b.alive = true := by
  unfold frameInteractions at h
  split at h
  · simp at h
  · set w1 : World :=
      { w with population := w.population.map (freeExpired w.current_sim_time) } with hw1
    have hlen : w1.population.length = w.population.length := by
      rw [hw1]
      exact List.length_map _ _
    have hfree : ∀ k, k < w.population.length →
        nth w1.population k = freeExpired w.current_sim_time (nth w.population k) := by
      intro k hk
      rw [hw1]
      exact nth_map _ _ _ hk
    have transfer : ∀ k, k < w.population.length → (nth w1.population k).alive = true →
        ∃ b ∈ w.population, b.id = (nth w1.population k).id ∧ b.alive = true := by
      intro k hk ha
      refine ⟨nth w.population k, nth_mem hk, ?_, ?_⟩
      · rw [hfree k hk, freeExpired_id]
      · rw [hfree k hk, freeExpired_alive] at ha
        exact ha
    rcases detectInteractions_mem w1 inter h with ⟨ij, hlt, hj, hmade⟩ | ⟨ij, hi, hmade⟩
    · obtain ⟨ha1, ha2, _, hparts⟩ := hmade
      have hi1 : ij.1 < w.population.length := by omega
      have hj1 : ij.2 < w.population.length := by omega
      rcases hparts with hp | hp <;> rw [hp] at hid <;> simp only [List.mem_cons,
        List.mem_singleton, List.not_mem_nil, or_false, Part.blob.injEq] at hid <;>
        rcases hid with rfl | rfl
      · exact transfer ij.1 hi1 ha1
      · exact transfer ij.2 hj1 ha2
      · exact transfer ij.2 hj1 ha2
      · exact transfer ij.1 hi1 ha1
    · obtain ⟨ha, hp⟩ := hmade
      have hi1 : ij.1 < w.population.length := by omega
      rw [hp] at hid
      simp only [List.mem_cons, List.mem_singleton, List.not_mem_nil, or_false,
        Part.blob.injEq] at hid
      rcases hid with rfl | hid
      · exact transfer ij.1 hi1 ha
      · exact absurd hid (by simp)

/-- The detector skips pairs whose two members are both `occupied`: while two
blobs of a pair are occupied and the current time is before both their end
times, no interaction created by the frame lists both of them. -/
theorem frameInteractions_skip_occupied (w : World) (x y : Blob)
    (hx : x ∈ w.population) (hy : y ∈ w.population) (hneq : x.id ≠ y.id)
    (hxo : x.interaction_state = "occupied") (hyo : y.interaction_state = "occupied")
    (hxt : w.current_sim_time < x.interaction_end_time)
    (hyt : w.current_sim_time < y.interaction_end_time)
    (hnodup : (idsOf w).Nodup) :
    ∀ inter ∈ frameInteractions w,
      ¬ (Part.blob x.id ∈ inter.participants ∧ Part.blob y.id ∈ inter.participants) := by
  rintro inter h ⟨hxp, hyp⟩
  unfold frameInteractions at h
  split at h
  · simp at h
  · set w1 : World :=
      { w with population := w.population.map (freeExpired w.current_sim_time) } with hw1
    have hlen : w1.population.length = w.population.length := by
      rw [hw1]
      exact List.length_map _ _
    have hids : w1.population.map (fun b => b.id) = w.population.map (fun b => b.id) := by
      rw [hw1]
      exact map_comp_congr (fun b => freeExpired_id w.current_sim_time b) _
    have hnodup1 : (w1.population.map (fun b => b.id)).Nodup := by
      rw [hids]
      exact hnodup
    have huniq : ∀ b1 ∈ w1.population, ∀ b2 ∈ w1.population, b1.id = b2.id → b1 = b2 :=
      fun b1 h1 b2 h2 => List.inj_on_of_nodup_map hnodup1 h1 h2
    have hxeq : freeExpired w.current_sim_time x = x := freeExpired_of_not_expired hxt
    have hyeq : freeExpired w.current_sim_time y = y := freeExpired_of_not_expired hyt
    have hxmem : x ∈ w1.population := by
      rw [hw1, ← hxeq]
      exact List.mem_map_of_mem _ hx
    have hymem : y ∈ w1.population := by
      rw [hw1, ← hyeq]
      exact List.mem_map_of_mem _ hy
    rcases detectInteractions_mem w1 inter h with ⟨ij, hlt, hj, hmade⟩ | ⟨ij, hi, hmade⟩
    · obtain ⟨_, _, hnotocc, hparts⟩ := hmade
      have hAmem : nth w1.population ij.1 ∈ w1.population := nth_mem (by omega)
      have hBmem : nth w1.population ij.2 ∈ w1.population := nth_mem hj
      have hcases : (nth w1.population ij.1 = x ∧ nth w1.population ij.2 = y) ∨
          (nth w1.population ij.1 = y ∧ nth w1.population ij.2 = x) := by
        rcases hparts with hp | hp <;> rw [hp] at hxp hyp <;>
          simp only [List.mem_cons, List.mem_singleton, List.not_mem_nil, or_false,
            Part.blob.injEq] at hxp hyp
        · rcases hxp with hxp | hxp <;> rcases hyp with hyp | hyp
          · exact absurd (hxp.trans hyp.symm) hneq
          · exact Or.inl ⟨huniq _ hAmem _ hxmem hxp.symm, huniq _ hBmem _ hymem hyp.symm⟩
          · exact Or.inr ⟨huniq _ hAmem _ hymem hyp.symm, huniq _ hBmem _ hxmem hxp.symm⟩
          · exact absurd (hxp.trans hyp.symm) hneq
        · rcases hxp with hxp | hxp <;> rcases hyp with hyp | hyp
          · exact absurd (hxp.trans hyp.symm) hneq
          · exact Or.inr ⟨huniq _ hAmem _ hymem hyp.symm, huniq _ hBmem _ hxmem hxp.symm⟩
          · exact Or.inl ⟨huniq _ hAmem _ hxmem hxp.symm, huniq _ hBmem _ hymem hyp.symm⟩
          · exact absurd (hxp.trans hyp.symm) hneq
      rcases hcases with ⟨hA, hB⟩ | ⟨hA, hB⟩
      · exact hnotocc ⟨by rw [hA]; exact hxo, by rw [hB]; exact hyo⟩
      · exact hnotocc ⟨by rw [hA]; exact hyo, by rw [hB]; exact hxo⟩
    · obtain ⟨_, hp⟩ := hmade
      rw [hp] at hxp hyp
      simp only [List.mem_cons, List.mem_singleton, List.not_mem_nil, or_false,
        Part.blob.injEq] at hxp hyp
      rcases hxp with hxp | hxp
      · rcases hyp with hyp | hyp
        · exact hneq (hxp.trans hyp.symm)
        · exact absurd hyp (by simp)
      · exact absurd hxp (by simp)

/-! ## Queue-contents lemma for the renderer snapshot queue -/

theorem produceAll_eq_drop {α : Type} :
    ∀ xs : List α, produceAll xs = xs.drop (xs.length - 10) := by
  intro xs
  induction xs using List.reverseRecOn with
  | nil => rfl
  | append_singleton xs x ih =>
    simp only [produceAll] at ih ⊢
    simp only [List.foldl_append, List.foldl_cons, List.foldl_nil]
    rw [ih]
    simp only [enqueueSnapshot, List.length_drop, List.length_append,
      List.length_singleton]
    by_cases hle : xs.length < 10
    · rw [if_pos (by omega), show xs.length - 10 = 0 from by omega,
        show xs.length + 1 - 10 = 0 from by omega]
      simp
    · rw [if_neg (by omega), List.drop_drop,
        show xs.length - 10 + 1 = xs.length + 1 - 10 from by omega,
        List.drop_append_eq_append_drop,
        show xs.length + 1 - 10 - xs.length = 0 from by omega]
      simp

/-! # Claim theorems -/

/-- C1.  The claim states that interaction detection classifies pairs by the
Euclidean distance between the agents' post-movement positions of the same
tick.  Evaluating the code at a failing input refutes this: two blobs born 6
units apart, one of which has walked 5 units toward the other, are 1 unit
apart after movement (mutually within visual range 3.0), yet the distance the
detector uses — read from the never-updated parallel `blob_locations` array —
is still 6 units, and the tick creates no interaction at all.  (`Blob.update`'s
write-back to `blob_locations` is commented out in the source.) -/
theorem claim_C1_stale_detection_distance :
    dist2 (nth tick2C1.blob_locations 0) (nth tick2C1.blob_locations 1) = 36 ∧
    dist2 (nth tick2C1.population 0).location (nth tick2C1.population 1).location = 1 ∧
    (nth tick2C1.population 0).alive = true ∧
    (nth tick2C1.population 1).alive = true ∧
    canSee (dist2 (nth tick2C1.population 0).location (nth tick2C1.population 1).location)
      (nth tick2C1.population 0).visual_range = true ∧
    canSee (dist2 (nth tick2C1.population 0).location (nth tick2C1.population 1).location)
      (nth tick2C1.population 1).visual_range = true ∧
    tickInteractions tick1C1 1 rngWalker = [] := by
  decide

/-- C2.  The claim states that an out-of-bounds move clamps the position,
cancels motion, forces idle, zeroes the direction, and re-adds the agent to
the undecided set.  Evaluating the code at a failing input shows the first
four effects but refutes the fifth: blob 1, walking `+x` at speed 5 from
`x = 95` in a world of length 100, is clamped to `x = 99`, stopped, idled and
zeroed — but the undecided list does not contain it after the tick, and the
next tick's decision phase asks only blob 2 (whose rest simply ended), so
blob 1 never proposes an action again. -/
theorem claim_C2_boundary_clamp_no_reenter :
    (nth tick2C2.population 0).location = (99, 0, 0) ∧
    (nth tick2C2.population 0).is_moving = false ∧
    (nth tick2C2.population 0).state = "idle" ∧
    (nth tick2C2.population 0).direction = (0, 0, 0) ∧
    (nth tick2C2.population 0).alive = true ∧
    tick2C2.undecided = [] ∧
    askedIds tick2C2 1 = [2] := by
  decide

/-- C3 (counterexample).  The claim states that a dead agent is never asked
to propose an action via `decide_action`.  In the `w0C3` trace the lone blob
(lifespan 5/4) dies at age 2 while its second rest is pending; the rest's end
event then runs `go_idle`, which unconditionally re-enters the blob into the
undecided list, and the same tick's decision phase asks it — while dead. -/
theorem claim_C3_counterexample :
    1 ∈ askedIds tick2C3 1 ∧
    (findBlob (preDecision tick2C3 1) 1).map Blob.alive = some false := by
  decide

/-- C3 (amended).  Dead agents take part in no interaction — every blob
participant of an interaction created during a tick is alive in the
post-movement population the detector reads — and they remain in the
population (a tick never changes the population's id list); but they are not
excluded from decision-making (see the counterexample). -/
theorem claim_C3_dead_agents_detection_and_population :
    (∀ (w : World) (sim_delta_time : ℚ) (rng : Nat → RngDraw) (inter : Interaction),
        inter ∈ tickInteractions w sim_delta_time rng →
        ∀ id, Part.blob id ∈ inter.participants →
          ∃ b ∈ (movementPhase (handle_decisions (preDecision w sim_delta_time) rng)
              sim_delta_time).population, b.id = id ∧ b.alive = true) ∧
    (∀ (w : World) (sim_delta_time : ℚ) (rng : Nat → RngDraw),
        idsOf (World.update w sim_delta_time rng) = idsOf w) :=
  ⟨fun _ _ _ inter h id hid => frameInteractions_alive _ inter h id hid,
   fun w sdt rng => ids_update w sdt rng⟩

/-- C3 (witness).  A concrete tick of `wNear` creates a mutual interaction
whose participant 1 the amended theorem certifies alive. -/
theorem claim_C3_witness :
    (⟨"blob_mutual_0", [Part.blob 1, Part.blob 2], "blob_mutual"⟩ : Interaction)
        ∈ tickInteractions wNear 1 rngRester ∧
    ∃ b ∈ (movementPhase (handle_decisions (preDecision wNear 1) rngRester) 1).population,
      b.id = 1 ∧ b.alive = true :=
  ⟨by decide,
   claim_C3_dead_agents_detection_and_population.1 wNear 1 rngRester
     ⟨"blob_mutual_0", [Part.blob 1, Part.blob 2], "blob_mutual"⟩ (by decide) 1
     (by decide)⟩

/-- C4.  Processing a mutual interaction marks both participants `occupied`
with a shared end time (`current_sim_time + 2`) and interaction id and
schedules exactly one release event; and for any world in which both members
of a pair are `occupied` with their end times still in the future, the
frame's detection creates no interaction listing that pair — so an ongoing
mutual interaction is never re-triggered until the occupation ends. -/
theorem claim_C4_mutual_occupies_and_is_not_retriggered :
    (∀ (w : World) (iid : String) (a b : Nat),
        ((processInteraction w ⟨iid, [Part.blob a, Part.blob b], "blob_mutual"⟩).events).Perm
          (⟨w.current_sim_time + 2, "end_interaction", a,
            ⟨(0, 0, 0), 0, 0, 0, iid, [a, b]⟩⟩ :: w.events) ∧
        ∀ blob ∈ (processInteraction w ⟨iid, [Part.blob a, Part.blob b],
            "blob_mutual"⟩).population,
          blob.id = a ∨ blob.id = b →
          blob.interaction_state = "occupied" ∧
          blob.current_interaction_id = some iid ∧
          blob.interaction_end_time = w.current_sim_time + 2) ∧
    (∀ (w : World) (x y : Blob),
        x ∈ w.population → y ∈ w.population → x.id ≠ y.id →
        x.interaction_state = "occupied" → y.interaction_state = "occupied" →
        w.current_sim_time < x.interaction_end_time →
        w.current_sim_time < y.interaction_end_time →
        (idsOf w).Nodup →
        ∀ inter ∈ frameInteractions w,
          ¬ (Part.blob x.id ∈ inter.participants ∧ Part.blob y.id ∈ inter.participants)) :=
  ⟨processInteraction_mutual, frameInteractions_skip_occupied⟩

/-- C4 (witness).  After one tick of `wNear` both blobs are `occupied` until
time 3 with the clock at 1, and the theorem yields that the next frame
detects nothing for the pair (indeed `frameInteractions tickNear = []`). -/
theorem claim_C4_witness :
    ((nth tickNear.population 0) ∈ tickNear.population ∧
     (nth tickNear.population 0).interaction_state = "occupied" ∧
     tickNear.current_sim_time < (nth tickNear.population 0).interaction_end_time) ∧
    (∀ inter ∈ frameInteractions tickNear,
      ¬ (Part.blob (nth tickNear.population 0).id ∈ inter.participants ∧
         Part.blob (nth tickNear.population 1).id ∈ inter.participants)) :=
  ⟨⟨by decide, by decide, by decide⟩,
   claim_C4_mutual_occupies_and_is_not_retriggered.2 tickNear
     (nth tickNear.population 0) (nth tickNear.population 1)
     (by decide) (by decide) (by decide) (by decide) (by decide) (by decide) (by decide)
     (by decide)⟩

/-- C5.  `process_events_until(t)` pops and executes exactly the queued
events whose scheduled time is ≤ t, in non-decreasing time order, and leaves
exactly the events scheduled after `t` in the queue; in particular, with
events scheduled at times [3, 1, 2] and `t = 5/2`, the time-1 and time-2
events execute in that order and the time-3 event remains queued. -/
theorem claim_C5_process_until_exact :
    (∀ (l : List Event) (t : ℚ), IsHeap l →
      (processUntil l t).1.Perm (l.filter fun x => decide (x.time ≤ t)) ∧
      List.Pairwise (fun a b : Event => a.time ≤ b.time) (processUntil l t).1 ∧
      (processUntil l t).2.Perm (l.filter fun x => decide (¬ x.time ≤ t))) ∧
    processUntil heapC5 (5 / 2) = ([evAt 1 "one", evAt 2 "two"], [evAt 3 "three"]) :=
  ⟨fun l t H => processUntil_spec l t H, by decide⟩

/-- C5 (witness).  The [3, 1, 2] heap satisfies the heap invariant and the
theorem applies to it. -/
theorem claim_C5_witness :
    IsHeap heapC5 ∧
    (processUntil heapC5 (5 / 2)).1.Perm
      (heapC5.filter fun x => decide (x.time ≤ 5 / 2)) :=
  ⟨by decide, (claim_C5_process_until_exact.1 heapC5 (5 / 2) (by decide)).1⟩

/-- C6 (counterexample).  The claim states that equal-time events execute in
stable insertion order.  Four equal-time events inserted a, b, c, d execute
as a, c, b, d (CPython's `_siftup` moves the right child up on ties), so the
execution order is not the insertion order. -/
theorem claim_C6_counterexample :
    (processUntil heapC6 1).1 ≠ [evAt 1 "a", evAt 1 "b", evAt 1 "c", evAt 1 "d"] := by
  decide

/-- C6 (amended).  Equal-time events execute in a deterministic order fixed
by the binary heap's layout — a permutation of the inserted events, but not
insertion order in general: a, b, c, d inserted in that order execute as
a, c, b, d. -/
theorem claim_C6_deterministic_heap_order :
    (processUntil heapC6 1).1 = [evAt 1 "a", evAt 1 "c", evAt 1 "b", evAt 1 "d"] ∧
    (processUntil heapC6 1).1.Perm
      [evAt 1 "a", evAt 1 "b", evAt 1 "c", evAt 1 "d"] := by
  decide

/-- C7.  After any tick's update, an agent whose age exceeds its lifespan is
flagged dead: phase (4) re-derives the flag from the incremented age, and the
only later phase (interaction processing) never touches age, aliveness or
lifespan. -/
theorem claim_C7_age_exceeds_lifespan_dead :
    ∀ (w : World) (sim_delta_time : ℚ) (rng : Nat → RngDraw),
      ∀ b ∈ (World.update w sim_delta_time rng).population,
        b.age > b.lifespan → b.alive = false := by
  intro w sdt rng b hb hgt
  have hv : (World.update w sdt rng).population.map vitals
      = (movementPhase (handle_decisions (preDecision w sdt) rng) sdt).population.map vitals := by
    unfold World.update
    exact vitals_check_all_interactions _
  have hmem : vitals b
      ∈ (movementPhase (handle_decisions (preDecision w sdt) rng) sdt).population.map vitals := by
    rw [← hv]
    exact List.mem_map_of_mem vitals hb
  rw [List.mem_map] at hmem
  obtain ⟨b0, hb0, hveq⟩ := hmem
  unfold movementPhase at hb0
  rw [List.mem_map] at hb0
  obtain ⟨b1, _, rfl⟩ := hb0
  obtain ⟨h1, h2, h3⟩ : _ ∧ _ ∧ _ := by
    simpa [vitals, Prod.ext_iff] using hveq
  rw [← h2]
  refine Blob.update_age_dead b1 sdt _ _ _ ?_
  rw [h1, h3]
  exact hgt

/-- C7 (witness).  The dead blob of the `w0C3` trace instantiates the death
rule after the second tick. -/
theorem claim_C7_witness :
    (nth tick2C3.population 0) ∈ (World.update tick1C3 1 rngRester).population ∧
    (nth tick2C3.population 0).age > (nth tick2C3.population 0).lifespan ∧
    (nth tick2C3.population 0).alive = false :=
  ⟨by decide, by decide,
   claim_C7_age_exceeds_lifespan_dead tick1C3 1 rngRester _ (by decide) (by decide)⟩

/-- C8.  For a tick with non-retreating wall clock and non-negative time
multiplier, `handle_timings` never decreases the simulation clock and the
simulation-time delta it applies is at most the 0.1 s wall-clock cap times
the multiplier, however large the elapsed wall-clock delta; and
`World.update` advances the world clock by exactly the supplied delta, so a
non-negative delta keeps it non-decreasing. -/
theorem claim_C8_clock_monotone_and_capped :
    (∀ (simulation_time last_update_time now time_multiplier : ℚ),
        last_update_time ≤ now → 0 ≤ time_multiplier →
        simulation_time
            ≤ (handle_timings simulation_time last_update_time now time_multiplier).1 ∧
        (handle_timings simulation_time last_update_time now time_multiplier).2.1
            ≤ 1 / 10 * time_multiplier) ∧
    (∀ (w : World) (sim_delta_time : ℚ) (rng : Nat → RngDraw), 0 ≤ sim_delta_time →
        w.current_sim_time ≤ (World.update w sim_delta_time rng).current_sim_time) := by
  constructor
  · intro st lt now mult hle hmult
    unfold handle_timings
    dsimp only
    constructor
    · have hcap : 0 ≤ min (now - lt) (1 / 10) := le_min (by linarith) (by norm_num)
      have := mul_nonneg hcap hmult
      linarith
    · exact mul_le_mul_of_nonneg_right (min_le_right _ _) hmult
  · intro w sdt rng hsdt
    have h := congrArg Prod.fst (clockFields_update w sdt rng)
    have h' : (World.update w sdt rng).current_sim_time = w.current_sim_time + sdt := h
    rw [h']
    linarith

/-- C8 (witness).  A five-second stall with multiplier 5 yields a sim-time
delta of exactly the cap times the multiplier. -/
theorem claim_C8_witness :
    ((0 : ℚ) ≤ (handle_timings 0 0 5 5).1 ∧ (handle_timings 0 0 5 5).2.1 ≤ 1 / 10 * 5) ∧
    w0C1.current_sim_time ≤ (World.update w0C1 1 rngWalker).current_sim_time :=
  ⟨claim_C8_clock_monotone_and_capped.1 0 0 5 5 (by norm_num) (by norm_num),
   claim_C8_clock_monotone_and_capped.2 w0C1 1 rngWalker (by norm_num)⟩

/-- C9.  Producing more than capacity-many snapshots with no consumption
leaves the queue holding exactly the 10 most recently produced snapshots, in
production order (drop-oldest, never blocking: `enqueueSnapshot` is total). -/
theorem claim_C9_drop_oldest_keeps_latest {α : Type} :
    ∀ (xs : List α), 10 < xs.length →
      produceAll xs = xs.drop (xs.length - 10) ∧ (produceAll xs).length = 10 := by
  intro xs h
  refine ⟨produceAll_eq_drop xs, ?_⟩
  rw [produceAll_eq_drop xs, List.length_drop]
  omega

/-- C9 (witness).  Twelve productions leave the last ten queued. -/
theorem claim_C9_witness :
    10 < (List.range 12).length ∧
    produceAll (List.range 12) = (List.range 12).drop ((List.range 12).length - 10) :=
  ⟨by decide, (claim_C9_drop_oldest_keeps_latest (List.range 12) (by decide)).1⟩

/-- C10.  After a tick with non-negative delta on a world with non-negative
clock and positive `hours_per_day`: `hour` is the floor of the (new)
`current_sim_time`, `day_hour = hour % hours_per_day + 1 ∈ [1, hours_per_day]`,
and `day = hour // hours_per_day + 1 ≥ 1`. -/
theorem claim_C10_calendar_fields :
    ∀ (w : World) (sim_delta_time : ℚ) (rng : Nat → RngDraw),
      0 ≤ w.current_sim_time → 0 ≤ sim_delta_time → 0 < w.hours_per_day →
      (World.update w sim_delta_time rng).hour
          = ⌊(World.update w sim_delta_time rng).current_sim_time⌋ ∧
      (World.update w sim_delta_time rng).day_hour
          = Int.emod (World.update w sim_delta_time rng).hour w.hours_per_day + 1 ∧
      1 ≤ (World.update w sim_delta_time rng).day_hour ∧
      (World.update w sim_delta_time rng).day_hour ≤ w.hours_per_day ∧
      (World.update w sim_delta_time rng).day
          = Int.ediv (World.update w sim_delta_time rng).hour w.hours_per_day + 1 ∧
      1 ≤ (World.update w sim_delta_time rng).day := by
  intro w sdt rng h0 hsdt hhpd
  have h := clockFields_update w sdt rng
  have hc : (World.update w sdt rng).current_sim_time = w.current_sim_time + sdt :=
    congrArg Prod.fst h
  have hh : (World.update w sdt rng).hour = ⌊w.current_sim_time + sdt⌋ :=
    congrArg (fun p => p.2.1) h
  have hdh : (World.update w sdt rng).day_hour
      = Int.emod ⌊w.current_sim_time + sdt⌋ w.hours_per_day + 1 :=
    congrArg (fun p => p.2.2.1) h
  have hd : (World.update w sdt rng).day
      = Int.ediv ⌊w.current_sim_time + sdt⌋ w.hours_per_day + 1 :=
    congrArg (fun p => p.2.2.2) h
  have hfloor : (0 : ℤ) ≤ ⌊w.current_sim_time + sdt⌋ :=
    Int.floor_nonneg.mpr (by linarith)
  have hmod1 : 0 ≤ Int.emod ⌊w.current_sim_time + sdt⌋ w.hours_per_day :=
    Int.emod_nonneg _ (by omega)
  have hmod2 : Int.emod ⌊w.current_sim_time + sdt⌋ w.hours_per_day < w.hours_per_day :=
    Int.emod_lt_of_pos _ hhpd
  have hdiv : 0 ≤ Int.ediv ⌊w.current_sim_time + sdt⌋ w.hours_per_day :=
    Int.ediv_nonneg hfloor (le_of_lt hhpd)
  refine ⟨?_, ?_, ?_, ?_, ?_, ?_⟩
  · rw [hh, hc]
  · rw [hdh, hh]
  · omega
  · omega
  · rw [hd, hh]
  · omega

/-- C10 (witness).  The calendar fields after one tick of `w0C1`. -/
theorem claim_C10_witness :
    ((0 : ℚ) ≤ w0C1.current_sim_time ∧ (0 : ℚ) ≤ 1 ∧ (0 : ℤ) < w0C1.hours_per_day) ∧
    (1 ≤ (World.update w0C1 1 rngWalker).day_hour ∧
     (World.update w0C1 1 rngWalker).day_hour ≤ w0C1.hours_per_day ∧
     1 ≤ (World.update w0C1 1 rngWalker).day) :=
  ⟨⟨by decide, by norm_num, by decide⟩,
   ⟨(claim_C10_calendar_fields w0C1 1 rngWalker (by decide) (by norm_num) (by decide)).2.2.1,
    (claim_C10_calendar_fields w0C1 1 rngWalker (by decide) (by norm_num) (by decide)).2.2.2.1,
    (claim_C10_calendar_fields w0C1 1 rngWalker (by decide) (by norm_num)
      (by decide)).2.2.2.2.2⟩⟩

end BlobSim
